import Mathlib

/-!
# Verification of the `dumb-cgi` request parser

A shallow embedding, in Lean 4, of the request-body and query-string parsing
core of the `dumb-cgi` crate (files `src/lib.rs` and `src/request.rs`; the two
files are two snapshots of the same parser whose parsing logic is line-for-line
identical — where they differ in the spelling of a diagnostic message the
`src/lib.rs` text is used, and a comment notes the other spelling).

Modelling conventions:
* A Rust `&[u8]` / `Vec<u8>` byte buffer is a `List Nat` of byte values.
* A Rust `String` / `&str` is a `List Nat` of Unicode scalar values
  (code points); `utf8Encode` is `str::as_bytes`, `utf8LossyDecode` is
  `String::from_utf8_lossy`, and `utf8Valid` is the success test of
  `std::str::from_utf8` / `String::from_utf8`.
* A Rust `HashMap<String, String>` is an association list observed only
  through `hmGet`; `hmInsert` has the `HashMap::insert` replace-on-collision
  semantics (iteration order of a `HashMap` is unspecified, so any
  association-list representative is a faithful model).
* `char::to_lowercase` / `char::to_uppercase` are modelled on the ASCII
  range (the letters they are applied to in this crate — header names and
  environment-variable names — are ASCII); the full Unicode case tables are
  out of scope.
-/

deriving instance DecidableEq for Except

/-- Rust `String` values are modelled as lists of Unicode scalar values. -/
abbrev Str := List Nat

/-- Code points of a Lean string literal (used to transcribe the ASCII
string literals appearing in the Rust source). -/
def str2cp (s : String) : List Nat :=
  s.data.map Char.toNat

/-- Decimal digits (as code points) of a natural number, as produced by
Rust's `Display` for integers inside `format!`. -/
def natToDec (n : Nat) : List Nat :=
  (Nat.toDigits 10 n).map Char.toNat

/-- Is `b` the code of an ASCII hexadecimal digit? -/
def isHexDigit (b : Nat) : Bool :=
  (48 ≤ b && b ≤ 57) || (97 ≤ b && b ≤ 102) || (65 ≤ b && b ≤ 70)

/-- Numeric value of an ASCII hexadecimal digit. -/
def hexDigitVal (b : Nat) : Nat :=
  if b ≤ 57 then b - 48 else if b ≤ 70 then b - 55 else b - 87

/-- `u8::from_str_radix(txt, 16)` on the two-byte string `[d1, d2]`.
For an unsigned target Rust accepts an optional leading `+`; a two-digit
hexadecimal value never overflows `u8`, so the only failure mode is
`InvalidDigit`, modelled as `none`. -/
def fromStrRadix16 (d1 d2 : Nat) : Option Nat :=
  if isHexDigit d1 && isHexDigit d2 then some (16 * hexDigitVal d1 + hexDigitVal d2)
  else if d1 = 43 && isHexDigit d2 then some (hexDigitVal d2)
  else none

/-- Outcome of decoding one UTF-8 sequence: valid, invalid (maximal subpart
replaced), or truncated by the end of the input. -/
inductive U8Status where
  | ok
  | bad
  | incomplete
deriving DecidableEq

/-- Is `c` a UTF-8 continuation byte? -/
def isCont (c : Nat) : Bool := 128 ≤ c && c ≤ 191

/-- One step of the UTF-8 decoder, following the "substitution of maximal
subparts" policy used by `String::from_utf8_lossy`: given the lead byte `b`
and the remaining bytes, return the decoded code point (`0xFFFD` on error),
the number of bytes consumed *after* the lead byte, and the status. -/
def utf8Step (b : Nat) (rest : List Nat) : Nat × Nat × U8Status :=
  if b ≤ 127 then (b, 0, .ok)
  else if 194 ≤ b && b ≤ 223 then
    match rest with
    | c1 :: _ =>
      if isCont c1 then ((b - 192) * 64 + (c1 - 128), 1, .ok)
      else (65533, 0, .bad)
    | [] => (65533, 0, .incomplete)
  else if 224 ≤ b && b ≤ 239 then
    let lo := if b = 224 then 160 else 128
    let hi := if b = 237 then 159 else 191
    match rest with
    | c1 :: c2 :: _ =>
      if lo ≤ c1 && c1 ≤ hi then
        if isCont c2 then ((b - 224) * 4096 + (c1 - 128) * 64 + (c2 - 128), 2, .ok)
        else (65533, 1, .bad)
      else (65533, 0, .bad)
    | [c1] =>
      if lo ≤ c1 && c1 ≤ hi then (65533, 1, .incomplete) else (65533, 0, .bad)
    | [] => (65533, 0, .incomplete)
  else if 240 ≤ b && b ≤ 244 then
    let lo := if b = 240 then 144 else 128
    let hi := if b = 244 then 143 else 191
    match rest with
    | c1 :: c2 :: c3 :: _ =>
      if lo ≤ c1 && c1 ≤ hi then
        if isCont c2 then
          if isCont c3 then
            ((b - 240) * 262144 + (c1 - 128) * 4096 + (c2 - 128) * 64 + (c3 - 128), 3, .ok)
          else (65533, 2, .bad)
        else (65533, 1, .bad)
      else (65533, 0, .bad)
    | [c1, c2] =>
      if lo ≤ c1 && c1 ≤ hi then
        if isCont c2 then (65533, 2, .incomplete) else (65533, 1, .bad)
      else (65533, 0, .bad)
    | [c1] =>
      if lo ≤ c1 && c1 ≤ hi then (65533, 1, .incomplete) else (65533, 0, .bad)
    | [] => (65533, 0, .incomplete)
  else (65533, 0, .bad)

/-- `String::from_utf8_lossy`, producing code points. Each step consumes at
least the lead byte, so running the loop `fuel ≥ length` times reaches the
end of the list; the fuel-exhausted branch is unreachable for the wrapper
`utf8LossyDecode` below. -/
def utf8LossyDecodeF : Nat → List Nat → List Nat
  | _, [] => []
  | 0, _ :: _ => []
  | fuel + 1, b :: rest =>
    let s := utf8Step b rest
    s.1 :: utf8LossyDecodeF fuel (rest.drop s.2.1)

/-- `String::from_utf8_lossy`. -/
def utf8LossyDecode (l : List Nat) : List Nat :=
  utf8LossyDecodeF l.length l

/-- The success test of `std::str::from_utf8`, with fuel as in
`utf8LossyDecodeF`. -/
def utf8ValidF : Nat → List Nat → Bool
  | _, [] => true
  | 0, _ :: _ => false
  | fuel + 1, b :: rest =>
    match utf8Step b rest with
    | (_, extra, .ok) => utf8ValidF fuel (rest.drop extra)
    | _ => false

/-- Does the byte list pass `std::str::from_utf8`? -/
def utf8Valid (l : List Nat) : Bool :=
  utf8ValidF l.length l

/-- Position and length data of the first UTF-8 error in a byte list, as
carried by `std::str::Utf8Error`: `(valid_up_to, error_len)`. Fuel as in
`utf8LossyDecodeF`. -/
def utf8FirstErrF : Nat → List Nat → Nat → Option (Nat × Option Nat)
  | _, [], _ => none
  | 0, _ :: _, _ => none
  | fuel + 1, b :: rest, idx =>
    match utf8Step b rest with
    | (_, extra, .ok) => utf8FirstErrF fuel (rest.drop extra) (idx + 1 + extra)
    | (_, extra, .bad) => some (idx, some (extra + 1))
    | (_, _, .incomplete) => some (idx, none)

/-- `Display` text of the `Utf8Error` for an invalid byte list (the
`FromUtf8Error` of `String::from_utf8` displays the same text). -/
def utf8ErrText (bytes : List Nat) : List Nat :=
  match utf8FirstErrF bytes.length bytes 0 with
  | none => []
  | some (i, some n) =>
    str2cp "invalid utf-8 sequence of " ++ natToDec n ++ str2cp " bytes from index " ++ natToDec i
  | some (i, none) =>
    str2cp "incomplete utf-8 byte sequence from index " ++ natToDec i

/-- `str::as_bytes` — UTF-8 encoding of a list of code points. -/
def utf8EncodeChar (c : Nat) : List Nat :=
  if c ≤ 127 then [c]
  else if c ≤ 2047 then [192 + c / 64, 128 + c % 64]
  else if c ≤ 65535 then [224 + c / 4096, 128 + (c / 64) % 64, 128 + c % 64]
  else [240 + c / 262144, 128 + (c / 4096) % 64, 128 + (c / 64) % 64, 128 + c % 64]

/-- `str::as_bytes` over a whole string. -/
def utf8Encode (s : Str) : List Nat :=
  (s.map utf8EncodeChar).flatten

/-- `char::is_whitespace`: the Unicode `White_Space` property. -/
def isWhitespaceChar (c : Nat) : Bool :=
  (9 ≤ c && c ≤ 13) || c = 32 || c = 133 || c = 160 || c = 5760 ||
  (8192 ≤ c && c ≤ 8202) || c = 8232 || c = 8233 || c = 8239 || c = 8287 || c = 12288

/-- `char::to_lowercase`, modelled on the ASCII range (see the header
comment; all letters this crate lower-cases are ASCII). -/
def charToLower (c : Nat) : Nat :=
  if 65 ≤ c && c ≤ 90 then c + 32 else c

/-- `str::to_lowercase`. -/
def strToLower (s : Str) : Str := s.map charToLower

/-- `char::to_uppercase`, modelled on the ASCII range. -/
def charToUpper (c : Nat) : Nat :=
  if 97 ≤ c && c ≤ 122 then c - 32 else c

/-- `str::to_uppercase`. -/
def strToUpper (s : Str) : Str := s.map charToUpper

/-- `str::trim_start`. -/
def trimStart (s : Str) : Str := s.dropWhile isWhitespaceChar

/-- `str::trim`. -/
def strTrim (s : Str) : Str :=
  ((s.dropWhile isWhitespaceChar).reverse.dropWhile isWhitespaceChar).reverse

/-- `HashMap<String, String>::insert` on the association-list model:
replace any existing binding of `k`, else add one. -/
def hmInsert (m : List (Str × Str)) (k v : Str) : List (Str × Str) :=
  (k, v) :: m.filter (fun p => p.1 ≠ k)

/-- `HashMap<String, String>::get`. -/
def hmGet (m : List (Str × Str)) (k : Str) : Option Str :=
  (m.find? (fun p => p.1 = k)).map (fun p => p.2)

/-! ## `slicey_find` — primitive substring search (ByteScanner)

`fn slicey_find<T: Eq>(haystack: &[T], needle: &[T]) -> Option<usize>` walks
the windows of length `needle.len()` and returns the index of the first
window equal to `needle` (`None` for an empty needle). Walking windows is
equivalent to testing, at each index in turn, whether the needle is a
leading segment of the rest of the haystack. -/

/-- The window walk of `slicey_find`, specialised to byte lists. -/
def slicey_find_from (haystack needle : List Nat) : Option Nat :=
  match haystack with
  | [] => none
  | _ :: t =>
    if needle.isPrefixOf haystack then some 0
    else (slicey_find_from t needle).map (· + 1)

/-- `slicey_find` itself: an empty needle returns `None` up front (the Rust
code returns early because `slice::windows(0)` would panic). -/
def slicey_find (haystack needle : List Nat) : Option Nat :=
  if needle.isEmpty then none else slicey_find_from haystack needle

/-! ## `Error` and `url_decode` — PercentDecoder

`fn url_decode(qstr: &str) -> Result<String, Error>` (src/lib.rs; the
src/request.rs snapshot is the same algorithm with `Result<String, String>`
and slightly different diagnostic spellings). The scan walks `qstr.as_bytes()`
by index: `+` emits a space, `%` consumes the next two bytes as a hexadecimal
escape, everything else is copied verbatim; the collected bytes are finally
re-validated as UTF-8. -/

/-- The crate's error type (src/lib.rs). The src/request.rs snapshot carries
the same data as a struct `{ code, message, details }` whose `details` field
holds the string found here (with `code = 400` for input errors). -/
inductive Error where
  | environmentError (s : Str)
  | inputError (s : Str)
deriving DecidableEq

/-- Result of the `url_decode` scanning loop. `panicOOB` marks the one
`unsafe { bytes.get_unchecked(idx) }` read going past the end of the buffer
(undefined behaviour in Rust); `urlDecodeCore_ne_panic` proves that read is
always in bounds, as the source comment asserts. -/
inductive UDecodeResult where
  | ok (s : Str)
  | err (msg : Str)
  | panicOOB
deriving DecidableEq

/-- `format!("Error with %-encoding at byte {}: {}", &idx, &e)`. -/
def encErrMsg (idx : Nat) (e : List Nat) : List Nat :=
  str2cp "Error with %-encoding at byte " ++ natToDec idx ++ str2cp ": " ++ e

/-- The `while idx < bytes.len()` loop of `url_decode`, followed by the
final `String::from_utf8` check; `acc` is the `rbytes` vector. Every
iteration advances `idx` by at least one while `idx < bytes.len()`, so
`fuel > bytes.length - idx` iterations always reach the final check;
the fuel-exhausted branch is unreachable for the wrapper `urlDecodeCore`. -/
def urlDecodeCoreF (bytes : List Nat) : Nat → Nat → List Nat → UDecodeResult
  | 0, _, _ => .panicOOB
  | fuel + 1, idx, acc =>
    if idx < bytes.length then
      match bytes[idx]? with
      | none => .panicOOB
      | some b =>
        if b = 43 then urlDecodeCoreF bytes fuel (idx + 1) (acc ++ [32])
        else if b = 37 then
          match (bytes.drop (idx + 1)).take 2 with
          | [d1, d2] =>
            if utf8Valid [d1, d2] then
              match fromStrRadix16 d1 d2 with
              | some n => urlDecodeCoreF bytes fuel (idx + 3) (acc ++ [n])
              | none => .err (encErrMsg idx (str2cp "invalid digit found in string"))
            else .err (encErrMsg idx (utf8ErrText [d1, d2]))
          | _ => .err (encErrMsg idx (str2cp "string ended during escape sequence."))
        else urlDecodeCoreF bytes fuel (idx + 1) (acc ++ [b])
    else if utf8Valid acc then .ok (utf8LossyDecode acc)
    else .err (str2cp "Not valid UTF-8: " ++ utf8ErrText acc)

/-- The `url_decode` loop from index `idx` with accumulated bytes `acc`. -/
def urlDecodeCore (bytes : List Nat) (idx : Nat) (acc : List Nat) : UDecodeResult :=
  urlDecodeCoreF bytes (bytes.length + 1) idx acc

/-- `url_decode` on the bytes of the input string. All three `Err` sites of
the Rust function build an `Error::InputError`; the `panicOOB` case cannot
occur (`urlDecodeCore_ne_panic`) and is mapped to a dummy error. -/
def url_decode (bytes : List Nat) : Except Error Str :=
  match urlDecodeCore bytes 0 [] with
  | .ok s => .ok s
  | .err m => .error (.inputError m)
  | .panicOOB => .error (.inputError [])

/-! ## `match_header` — HeaderLineParser -/

/-- `&l[a..b]` for a two-ended Rust slice (in this development it is only
applied with `a ≤ b ≤ l.length`). -/
def extract (l : List Nat) (a b : Nat) : List Nat := (l.take b).drop a

/-- `fn match_header(bytes: &[u8]) -> Option<(String, String)>`: split at the
first colon; the name is lossily decoded, trimmed and lower-cased, the value
lossily decoded with only leading whitespace trimmed. No colon: `None`. -/
def match_header (bytes : List Nat) : Option (Str × Str) :=
  match bytes.findIdx? (fun b => b = 58) with
  | Option.none => Option.none
  | Option.some sep_idx =>
    Option.some (strToLower (strTrim (utf8LossyDecode (bytes.take sep_idx))),
      trimStart (utf8LossyDecode (bytes.drop (sep_idx + 1))))

/-! ## `read_multipart_chunk` — MultipartPartParser -/

/-- `struct MultipartPart { headers, body }`. -/
structure MultipartPart where
  headers : List (Str × Str)
  body : List Nat
deriving DecidableEq

/-- The header-collection loop of `read_multipart_chunk`: repeatedly find
the next `\r\n`; a line that parses as a header is recorded and the loop
continues, the first line that does not ends the loop just past its
terminator. Returns the final `position` and the header map. -/
def rmcLoopF (chunk : List Nat) : Nat → Nat → List (Str × Str) → Nat × List (Str × Str)
  | 0, position, headers => (position, headers)
  | fuel + 1, position, headers =>
    match slicey_find (chunk.drop position) [13, 10] with
    | Option.none => (position, headers)
    | Option.some n =>
      match match_header (extract chunk position (position + n)) with
      | Option.some kv => rmcLoopF chunk fuel (position + n + 2) (hmInsert headers kv.1 kv.2)
      | Option.none => (position + n + 2, headers)

/-- The header-collection loop of `read_multipart_chunk`, starting from
`position`. Every iteration advances `position` by at least two while a
newline remains ahead of it, so the fuel below is sufficient and the
fuel-exhausted branch of `rmcLoopF` is unreachable. -/
def rmcLoop (chunk : List Nat) (position : Nat) (headers : List (Str × Str)) :
    Nat × List (Str × Str) :=
  rmcLoopF chunk (chunk.length + 1) position headers

/-- `fn read_multipart_chunk(chunk: &[u8]) -> Result<MultipartPart, String>`:
never returns `Err` (the `String` error channel is unused). -/
def read_multipart_chunk (chunk : List Nat) : Except (List Nat) MultipartPart :=
  let r := rmcLoop chunk 0 []
  .ok ⟨r.2, chunk.drop r.1⟩

/-! ## `find_next_multipart_chunk_end` and `read_multipart_body` —
MultipartSplitter -/

/-- Possible behaviours of the `find_next_multipart_chunk_end` loop.
`found i` and `stopped` are `Some(i)`/`None`; the other two constructors
mark inputs on which the Rust function does not return (see
`find_next_multipart_chunk_end`). -/
inductive ScanResult where
  | found (i : Nat)
  | stopped
  | panics
  | diverges
deriving DecidableEq

/-- The `while let Some(n) = slicey_find(subslice, HTTP_NEWLINE)` loop of
`find_next_multipart_chunk_end`, with the invariant `subslice = &bytes[pos..]`.
When the guard `bytes.len() > post_newline_idx` fails, the Rust loop body
updates neither `pos` nor `subslice`, so the next iteration finds the same
newline again and the loop never terminates: that branch is modelled as
`.diverges`. (`post_newline_idx ≤ bytes.len()` always holds, so the guard
fails exactly when the found `\r\n` ends at the end of the buffer.) -/
def fncGoF (bytes boundary : List Nat) : Nat → Nat → ScanResult
  | 0, _ => .diverges
  | fuel + 1, pos =>
    match slicey_find (bytes.drop pos) [13, 10] with
    | Option.none => .stopped
    | Option.some n =>
      if bytes.length > pos + n + 2 then
        if boundary.isPrefixOf (bytes.drop (pos + n + 2)) then .found (pos + n)
        else fncGoF bytes boundary fuel (pos + n + 2)
      else .diverges

/-- The scan loop of `find_next_multipart_chunk_end` from position `pos`.
Every continuing iteration advances `pos` by at least two, so the fuel is
sufficient and the fuel-exhausted branch of `fncGoF` is unreachable. -/
def fncGo (bytes boundary : List Nat) (pos : Nat) : ScanResult :=
  fncGoF bytes boundary (bytes.length + 1) pos

/-- `fn find_next_multipart_chunk_end(bytes, current_position, boundary)`.
`.panics` models the initial `&bytes[pos..]` slice panicking when
`current_position > bytes.len()`. -/
def find_next_multipart_chunk_end (bytes : List Nat) (current_position : Nat)
    (boundary : List Nat) : ScanResult :=
  if current_position > bytes.length then .panics
  else fncGo bytes boundary current_position

def chunkLoopF (bytes boundary_bytes : List Nat) :
    Nat → Nat → List (List Nat) → Option (List (List Nat))
  | 0, _, _ => none
  | fuel + 1, position, chunks =>
    match find_next_multipart_chunk_end bytes position boundary_bytes with
    | .stopped => some chunks
    | .panics => none
    | .diverges => none
    | .found next_position =>
      if bytes.length ≥ next_position + 2 + boundary_bytes.length + 2 then
        if extract bytes (next_position + 2 + boundary_bytes.length)
            (next_position + 2 + boundary_bytes.length + 2) = [13, 10] then
          chunkLoopF bytes boundary_bytes fuel (next_position + 2 + boundary_bytes.length + 2)
            (chunks ++ [extract bytes position next_position])
        else some (chunks ++ [extract bytes position next_position])
      else some (chunks ++ [extract bytes position next_position])

/-- The chunk-collection loop of `read_multipart_body`. `none` models the
Rust code failing to return: the scan diverging, or (unreachably from
`read_multipart_body`, whose positions stay in bounds) panicking. Every
continuing iteration advances `position` by at least four, so the fuel is
sufficient and the fuel-exhausted branch of `chunkLoopF` is unreachable. -/
def chunkLoop (bytes boundary_bytes : List Nat) (position : Nat)
    (chunks : List (List Nat)) : Option (List (List Nat)) :=
  chunkLoopF bytes boundary_bytes (bytes.length + 1) position chunks

/-- `enum Body`. -/
inductive Body where
  | none
  | some (bytes : List Nat)
  | multipart (parts : List MultipartPart)
  | err (e : Error)
deriving DecidableEq

/-- The final pass of `read_multipart_body`: each chunk is reduced to a
`MultipartPart`; a chunk whose parse fails is silently dropped
(`read_multipart_chunk` in fact never fails). -/
def processChunks (chunks : List (List Nat)) : List MultipartPart :=
  chunks.foldl (fun parts c =>
    match read_multipart_chunk c with
    | .error _ => parts
    | .ok mpp => parts ++ [mpp]) []

/-- `fn read_multipart_body(body_bytes: &[u8], boundary: &str) -> Body`.
`boundary` is given by its bytes; `boundary_bytes` is `"--"` prepended.
The result is `none` exactly when the Rust function never returns (its
chunk scan loops forever, see `fncGo`). -/
def read_multipart_body (body_bytes : List Nat) (boundary : List Nat) : Option Body :=
  match slicey_find body_bytes ([45, 45] ++ boundary) with
  | Option.none =>
    Option.some (.err (.inputError (str2cp "multipart body missing boundary string")))
  | Option.some n =>
    if body_bytes.length > n + ([45, 45] ++ boundary).length + 2 then
      if extract body_bytes (n + ([45, 45] ++ boundary).length)
          (n + ([45, 45] ++ boundary).length + 2) = [13, 10] then
        match chunkLoop body_bytes ([45, 45] ++ boundary)
            (n + ([45, 45] ++ boundary).length + 2) [] with
        | Option.none => Option.none
        | Option.some chunks => Option.some (.multipart (processChunks chunks))
      else Option.some (.multipart [])
    else Option.some (.multipart [])

/-! ## `parse_query_string` — QueryStringParser -/

/-- `enum Query`. -/
inductive Query where
  | none
  | some (m : List (Str × Str))
  | err (e : Error)
deriving DecidableEq

/-- `Error::str()`. -/
def errStr : Error → Str
  | .environmentError s => s
  | .inputError s => s

/-- `str::split_once('=')`: split at the first `=`. -/
def splitOnceEq (s : Str) : Option (Str × Str) :=
  match s.findIdx? (fun c => c = 61) with
  | Option.none => Option.none
  | Option.some i => Option.some (s.take i, s.drop (i + 1))

/-- The `for nvp in qstr.split('&')` loop of `parse_query_string`
(src/lib.rs; the src/request.rs snapshot spells the final message
`"... not a name=vlaue pair."` and wraps messages slightly differently —
both embed the offending chunk's text). -/
def pqsGo : List Str → List (Str × Str) → Query
  | [], qmap => .some qmap
  | nvp :: rest, qmap =>
    match splitOnceEq nvp with
    | Option.some cnv =>
      match url_decode (utf8Encode cnv.1) with
      | .error e =>
        .err (.inputError (str2cp "Error with chunk \"" ++ cnv.1 ++ str2cp "=" ++ cnv.2 ++
          str2cp "\": " ++ errStr e))
      | .ok name =>
        match url_decode (utf8Encode cnv.2) with
        | .error e =>
          .err (.inputError (str2cp "Error with chunk \"" ++ cnv.1 ++ str2cp "=" ++ cnv.2 ++
            str2cp "\": " ++ errStr e))
        | .ok value => pqsGo rest (hmInsert qmap name value)
    | Option.none =>
      .err (.inputError (str2cp "Chunk \"" ++ nvp ++ str2cp "\" not a name=value pair."))

/-- `fn parse_query_string(qstr: &str) -> Query`. -/
def parse_query_string (qstr : Str) : Query :=
  pqsGo (qstr.splitOn 38) []

/-! ## Environment classification and the query field of `Request::new` -/

/-- Normalisation applied to an `HTTP_`-prefixed environment key: strip the
five-character prefix, replace `_` with `-`, lower-case. -/
def normHeaderKey (k : Str) : Str :=
  strToLower ((k.drop 5).map (fun c => if c = 95 then 45 else c))

/-- The `for (k, v) in std::env::vars_os()` classification loop of
`Request::new`: `HTTP_`-prefixed keys are inserted into `headers` under
`normHeaderKey`, all other keys into `vars` upper-cased. -/
def classifyEnvAux (vars headers : List (Str × Str)) :
    List (Str × Str) → List (Str × Str) × List (Str × Str)
  | [] => (vars, headers)
  | (k, v) :: rest =>
    if (str2cp "HTTP_").isPrefixOf k then
      classifyEnvAux vars (hmInsert headers (normHeaderKey k) v) rest
    else
      classifyEnvAux (hmInsert vars (strToUpper k) v) headers rest

/-- The `(vars, headers)` maps built by `Request::new` from the environment
(key/value pairs in iteration order). -/
def classifyEnv (env : List (Str × Str)) : List (Str × Str) × List (Str × Str) :=
  classifyEnvAux [] [] env

/-- The `query` field computed by `Request::new`. -/
def request_query (env : List (Str × Str)) : Query :=
  match hmGet (classifyEnv env).1 (str2cp "QUERY_STRING") with
  | Option.some qstr => parse_query_string qstr
  | Option.none => Query.none

/-! ## Derived constructions used by the claims -/

/-- One raw header line `name ++ ":" ++ value`. -/
def mkHeaderLine (p : List Nat × List Nat) : List Nat :=
  p.1 ++ 58 :: p.2

/-- A CRLF-terminated header block built from raw (name, value) lines. -/
def hdrcat (lines : List (List Nat × List Nat)) : List Nat :=
  (lines.map (fun p => mkHeaderLine p ++ [13, 10])).flatten

/-- One multipart chunk: header block, blank line, payload. -/
def mkChunk (lines : List (List Nat × List Nat)) (payload : List Nat) : List Nat :=
  hdrcat lines ++ [13, 10] ++ payload

/-- A two-part `multipart/form-data` body with boundary token `bnd`, proper
CRLF framing and a closing `--bnd--`. -/
def mkTwoPartBody (bnd c1 c2 : List Nat) : List Nat :=
  [45, 45] ++ bnd ++ [13, 10] ++ c1 ++
    [13, 10] ++ [45, 45] ++ bnd ++ [13, 10] ++ c2 ++
    [13, 10] ++ [45, 45] ++ bnd ++ [45, 45]

/-- The name normalisation of `match_header`: lossily decode, trim
surrounding whitespace, lower-case. -/
def normName (nm : List Nat) : Str :=
  strToLower (strTrim (utf8LossyDecode nm))

/-- The value normalisation of `match_header`: lossily decode, strip
leading whitespace only. -/
def normVal (vl : List Nat) : Str :=
  trimStart (utf8LossyDecode vl)

/-- The header map `read_multipart_chunk` builds from the raw lines. -/
def mkHeaderMap (lines : List (List Nat × List Nat)) : List (Str × Str) :=
  lines.foldl (fun m p => hmInsert m (normName p.1) (normVal p.2)) []

/-- Modelled from the spec, s4.1: "scan byte-by-byte; `+` becomes a space;
`%` consumes the next two bytes, interpreted as hexadecimal, emitting that
byte; any other byte is copied verbatim", failing on an incomplete or
non-hexadecimal escape. This is the claim side of the refinement claim C8,
to be compared with `url_decode`. -/
def specDecodeScan : List Nat -> Option (List Nat)
  | [] => some []
  | b :: rest =>
    if b = 43 then (specDecodeScan rest).map (fun out => 32 :: out)
    else if b = 37 then
      match rest with
      | d1 :: d2 :: r =>
        if isHexDigit d1 && isHexDigit d2 then
          (specDecodeScan r).map (fun out => (16 * hexDigitVal d1 + hexDigitVal d2) :: out)
        else none
      | _ => none
    else (specDecodeScan rest).map (fun out => b :: out)

/-! ## Helper lemmas -/

theorem pfx_length_le : ∀ (p l : List Nat), p.isPrefixOf l = true → p.length ≤ l.length := by
  intro p
  induction p with
  | nil => intro l _; simp
  | cons a as ih =>
    intro l h
    cases l with
    | nil => simp [List.isPrefixOf] at h
    | cons b bs =>
      simp only [List.isPrefixOf, Bool.and_eq_true, beq_iff_eq] at h
      simpa using ih bs h.2

theorem pfx_trans_take : ∀ (p l : List Nat), p.isPrefixOf l = true ↔ l.take p.length = p := by
  intro p
  induction p with
  | nil => intro l; simp [List.isPrefixOf]
  | cons a as ih =>
    intro l
    cases l with
    | nil => simp [List.isPrefixOf]
    | cons b bs =>
      simp only [List.isPrefixOf, Bool.and_eq_true, beq_iff_eq, List.length_cons,
        List.take_succ_cons, List.cons.injEq]
      constructor
      · rintro ⟨h1, h2⟩; exact ⟨h1.symm, (ih bs).mp h2⟩
      · rintro ⟨h1, h2⟩; exact ⟨h1.symm, (ih bs).mpr h2⟩

theorem sf_from_some_pfx {h nd : List Nat} {i : Nat}
    (e : slicey_find_from h nd = some i) : nd.isPrefixOf (h.drop i) = true := by
  induction h generalizing i with
  | nil => simp [slicey_find_from] at e
  | cons x t ih =>
    rw [slicey_find_from] at e
    by_cases hp : nd.isPrefixOf (x :: t) = true
    · simp [hp] at e; subst e; simpa using hp
    · simp [hp] at e
      obtain ⟨j, hj, rfl⟩ := e
      simpa using ih hj

theorem sf_from_some_min {h nd : List Nat} {i : Nat}
    (e : slicey_find_from h nd = some i) :
    ∀ j, j < i → nd.isPrefixOf (h.drop j) = false := by
  induction h generalizing i with
  | nil => simp [slicey_find_from] at e
  | cons x t ih =>
    rw [slicey_find_from] at e
    by_cases hp : nd.isPrefixOf (x :: t) = true
    · simp [hp] at e; omega
    · simp [hp] at e
      obtain ⟨j', hj', rfl⟩ := e
      intro j hj
      cases j with
      | zero => simpa using eq_false_of_ne_true hp
      | succ j0 => simpa using ih hj' j0 (by omega)

theorem sf_from_none {h nd : List Nat}
    (hnd : nd ≠ []) (e : slicey_find_from h nd = none) :
    ∀ j, nd.isPrefixOf (h.drop j) = false := by
  induction h with
  | nil =>
    intro j
    cases nd with
    | nil => exact absurd rfl hnd
    | cons a as => simp [List.isPrefixOf]
  | cons x t ih =>
    rw [slicey_find_from] at e
    by_cases hp : nd.isPrefixOf (x :: t) = true
    · simp [hp] at e
    · simp [hp] at e
      intro j
      cases j with
      | zero => simpa using eq_false_of_ne_true hp
      | succ j0 => simpa using ih e j0

theorem sf_from_some_le {h nd : List Nat} {i : Nat}
    (e : slicey_find_from h nd = some i) : i + nd.length ≤ h.length := by
  induction h generalizing i with
  | nil => simp [slicey_find_from] at e
  | cons x t ih =>
    rw [slicey_find_from] at e
    by_cases hp : nd.isPrefixOf (x :: t) = true
    · simp [hp] at e
      subst e
      simpa using pfx_length_le _ _ hp
    · simp [hp] at e
      obtain ⟨j', hj', rfl⟩ := e
      have := ih hj'
      simp only [List.length_cons]
      omega

theorem sf_from_pfx_zero {h nd : List Nat}
    (hnd : nd ≠ []) (hp : nd.isPrefixOf h = true) :
    slicey_find_from h nd = some 0 := by
  cases h with
  | nil =>
    cases nd with
    | nil => exact absurd rfl hnd
    | cons a as => simp [List.isPrefixOf] at hp
  | cons x t => rw [slicey_find_from]; simp [hp]

theorem urlDecodeCoreF_ne_panic (bytes : List Nat) :
    ∀ fuel idx acc, bytes.length - idx < fuel →
      urlDecodeCoreF bytes fuel idx acc ≠ .panicOOB := by
  intro fuel
  induction fuel with
  | zero => intro idx acc hk; omega
  | succ fuel ih =>
    intro idx acc hk
    rw [urlDecodeCoreF]
    by_cases h : idx < bytes.length
    · simp only [h, if_true]
      cases e : bytes[idx]? with
      | none =>
        rw [List.getElem?_eq_none_iff] at e
        omega
      | some b =>
        by_cases hb : b = 43
        · simp only [hb, if_true]
          exact ih (idx + 1) _ (by omega)
        · by_cases hc : b = 37
          · simp only [hb, if_false, hc, if_true]
            cases e2 : (bytes.drop (idx + 1)).take 2 with
            | nil => simp
            | cons d1 t1 =>
              cases t1 with
              | nil => simp
              | cons d2 t2 =>
                cases t2 with
                | nil =>
                  by_cases hv : utf8Valid [d1, d2] = true
                  · simp only [hv, if_true]
                    cases fromStrRadix16 d1 d2 with
                    | none => simp
                    | some n => exact ih (idx + 3) _ (by omega)
                  · simp [hv]
                | cons d3 t3 =>
                  exfalso
                  have := List.length_take 2 (bytes.drop (idx + 1))
                  rw [e2] at this
                  simp at this
                  omega
          · simp only [hb, if_false, hc, if_false]
            exact ih (idx + 1) _ (by omega)
    · simp only [h, if_false]
      by_cases hv : utf8Valid acc = true
      · simp [hv]
      · simp [hv]

theorem urlDecodeCore_ne_panic (bytes : List Nat) (idx : Nat) (acc : List Nat) :
    urlDecodeCore bytes idx acc ≠ .panicOOB :=
  urlDecodeCoreF_ne_panic bytes (bytes.length + 1) idx acc (by omega)

theorem fncGoF_found {bytes boundary : List Nat} :
    ∀ fuel pos i, fncGoF bytes boundary fuel pos = .found i →
      pos ≤ i ∧ i + 2 < bytes.length := by
  intro fuel
  induction fuel with
  | zero => intro pos i e; simp [fncGoF] at e
  | succ fuel ih =>
    intro pos i e
    rw [fncGoF] at e
    cases hsf : slicey_find (bytes.drop pos) [13, 10] with
    | none => rw [hsf] at e; simp at e
    | some n =>
      rw [hsf] at e
      by_cases h2 : bytes.length > pos + n + 2
      · simp only [h2, if_true] at e
        by_cases hb : boundary.isPrefixOf (bytes.drop (pos + n + 2)) = true
        · simp only [hb, if_true] at e
          cases e
          omega
        · simp only [hb, if_false] at e
          have := ih (pos + n + 2) i e
          omega
      · simp only [h2, if_false] at e
        simp at e

theorem fncGo_found {bytes boundary : List Nat} {pos i : Nat}
    (e : fncGo bytes boundary pos = .found i) : pos ≤ i ∧ i + 2 < bytes.length :=
  fncGoF_found (bytes.length + 1) pos i e

/-- Unfolding of `read_multipart_body` when the delimiter is found. -/
theorem rmb_some_eq (body boundary : List Nat) (n : Nat)
    (hfind : slicey_find body ([45, 45] ++ boundary) = some n) :
    read_multipart_body body boundary =
      (if body.length > n + ([45, 45] ++ boundary).length + 2 then
        if extract body (n + ([45, 45] ++ boundary).length)
            (n + ([45, 45] ++ boundary).length + 2) = [13, 10] then
          match chunkLoop body ([45, 45] ++ boundary)
              (n + ([45, 45] ++ boundary).length + 2) [] with
          | Option.none => Option.none
          | Option.some chunks => Option.some (Body.multipart (processChunks chunks))
        else some (Body.multipart [])
      else some (Body.multipart [])) := by
  unfold read_multipart_body
  rw [hfind]

/-- A two-byte escape window containing `%` (byte 37) never parses as a
hexadecimal `u8`. -/
theorem fromStrRadix16_with_percent {d1 d2 : Nat} (h : d1 = 37 ∨ d2 = 37) :
    fromStrRadix16 d1 d2 = none := by
  rcases h with rfl | rfl
  · simp [fromStrRadix16, isHexDigit]
  · simp [fromStrRadix16, isHexDigit]

/-- The two bytes after a `%` at index `i`, when the buffer is long enough. -/
theorem drop_take_two (l : List Nat) (i : Nat) (h : i + 2 ≤ l.length) :
    ∃ a b, (l.drop i).take 2 = [a, b] ∧ l[i]? = some a ∧ l[i + 1]? = some b := by
  have hlen2 : ((l.drop i).take 2).length = 2 := by
    simp only [List.length_take, List.length_drop]
    omega
  cases e : (l.drop i).take 2 with
  | nil => rw [e] at hlen2; simp at hlen2
  | cons a t =>
    cases t with
    | nil => rw [e] at hlen2; simp at hlen2
    | cons b t2 =>
      cases t2 with
      | cons c t3 => rw [e] at hlen2; simp at hlen2
      | nil =>
        refine ⟨a, b, rfl, ?_, ?_⟩
        · have h0 : ((l.drop i).take 2)[0]? = some a := by rw [e]; rfl
          rw [List.getElem?_take_of_lt (by omega), List.getElem?_drop] at h0
          simpa using h0
        · have h1 : ((l.drop i).take 2)[1]? = some b := by rw [e]; rfl
          rw [List.getElem?_take_of_lt (by omega), List.getElem?_drop] at h1
          simpa using h1

/-- If a `%` sits at an index with fewer than two bytes after it, the
`url_decode` loop (run with enough fuel) fails. -/
theorem urlDecode_trailing_escape_aux (bytes : List Nat) :
    ∀ fuel idx acc, bytes.length - idx < fuel →
      (∃ p, idx ≤ p ∧ bytes[p]? = some 37 ∧ bytes.length < p + 3) →
      ∃ m, urlDecodeCoreF bytes fuel idx acc = .err m := by
  intro fuel
  induction fuel with
  | zero => intro idx acc hk _; omega
  | succ fuel ih =>
    rintro idx acc hk ⟨p, hple, hpget, hplen⟩
    have hplt : p < bytes.length := by
      by_contra hge
      rw [List.getElem?_eq_none_iff.mpr (by omega)] at hpget
      exact absurd hpget (by simp)
    have hp37 : bytes[p] = 37 := by
      rw [List.getElem?_eq_getElem hplt] at hpget
      exact Option.some.inj hpget
    have hidx : idx < bytes.length := by omega
    rw [urlDecodeCoreF, if_pos hidx]
    simp only [List.getElem?_eq_getElem hidx]
    by_cases hb43 : bytes[idx] = 43
    · rw [if_pos hb43]
      have hne : idx ≠ p := by
        intro hh
        subst hh
        rw [hb43] at hp37
        omega
      exact ih (idx + 1) _ (by omega) ⟨p, by omega, hpget, hplen⟩
    · rw [if_neg hb43]
      by_cases hb37 : bytes[idx] = 37
      · rw [if_pos hb37]
        by_cases hwin : idx + 3 ≤ bytes.length
        · obtain ⟨a, b, he, ha, hb⟩ := drop_take_two bytes (idx + 1) (by omega)
          simp only [he]
          have hcase : p = idx + 1 ∨ p = idx + 2 ∨ idx + 3 ≤ p := by omega
          by_cases hv : utf8Valid [a, b] = true
          · rw [if_pos hv]
            rcases hcase with hp1 | hp2 | hp3
            · have ha2 : a = 37 := by
                rw [hp1] at hpget
                rw [hpget] at ha
                exact (Option.some.inj ha).symm
              simp only [fromStrRadix16_with_percent (Or.inl ha2)]
              exact ⟨_, rfl⟩
            · have hb2 : b = 37 := by
                have hpi : idx + 1 + 1 = p := by omega
                rw [hpi, hpget] at hb
                exact (Option.some.inj hb).symm
              simp only [fromStrRadix16_with_percent (Or.inr hb2)]
              exact ⟨_, rfl⟩
            · cases hr : fromStrRadix16 a b with
              | none => simp only [hr]; exact ⟨_, rfl⟩
              | some v =>
                simp only [hr]
                exact ih (idx + 3) _ (by omega) ⟨p, hp3, hpget, hplen⟩
          · rw [if_neg hv]
            exact ⟨_, rfl⟩
        · have hshort : ((bytes.drop (idx + 1)).take 2).length ≤ 1 := by
            simp only [List.length_take, List.length_drop]
            omega
          cases e : (bytes.drop (idx + 1)).take 2 with
          | nil => simp only [e]; exact ⟨_, rfl⟩
          | cons a t =>
            cases t with
            | nil => simp only [e]; exact ⟨_, rfl⟩
            | cons b t2 =>
              rw [e] at hshort
              simp at hshort
      · rw [if_neg hb37]
        have hne : idx ≠ p := by
          intro hh
          subst hh
          exact hb37 hp37
        exact ih (idx + 1) _ (by omega) ⟨p, by omega, hpget, hplen⟩

/-- A list on which `findIdx?` finds no `61` does not contain `61`. -/
theorem findIdxNone_no61 (s : Str) (h : s.findIdx? (fun c => c = 61) = none) :
    ¬ 61 ∈ s := by
  intro hm
  have := List.findIdx?_eq_none_iff.mp h 61 hm
  simp at this

/-- Decomposition of a list at the index `findIdx?` reports for `61`. -/
theorem findIdx61_decomp {s : Str} {i : Nat}
    (h : s.findIdx? (fun c => c = 61) = some i) :
    s = s.take i ++ 61 :: s.drop (i + 1) := by
  obtain ⟨hlt, hp, _⟩ := List.findIdx?_eq_some_iff_getElem.mp h
  have h61 : s[i] = 61 := by simpa using hp
  have hd : s.drop i = s[i] :: s.drop (i + 1) := List.drop_eq_getElem_cons hlt
  calc s = s.take i ++ s.drop i := (List.take_append_drop i s).symm
    _ = s.take i ++ 61 :: s.drop (i + 1) := by rw [hd, h61]

/-- `split_once('=')` decomposes its input around the first `=`. -/
theorem splitOnceEq_decomp {s : Str} {nv : Str × Str} (h : splitOnceEq s = some nv) :
    s = nv.1 ++ 61 :: nv.2 ∧ 61 ∈ s := by
  unfold splitOnceEq at h
  cases hf : s.findIdx? (fun c => c = 61) with
  | none => rw [hf] at h; exact absurd h (by simp)
  | some i =>
    rw [hf] at h
    have hd := findIdx61_decomp hf
    simp only [Option.some.injEq] at h
    subst h
    refine ⟨hd, ?_⟩
    rw [hd]
    simp

/-- The query-string loop fails as a whole, with a diagnostic embedding the
triggering chunk, whenever any chunk processed by it has no `=`. -/
theorem pqsGo_err_of_chunk_without_eq :
    ∀ (chunks : List Str) (qmap : List (Str × Str)) (c : Str), c ∈ chunks →
      c.findIdx? (fun x => x = 61) = none →
      ∃ t msg, pqsGo chunks qmap = .err (.inputError msg) ∧ t ∈ chunks ∧ t <:+: msg := by
  intro chunks
  induction chunks with
  | nil => intro qmap c hc _; simp at hc
  | cons h0 rest ih =>
    intro qmap c hc hno
    rw [pqsGo]
    cases hs : splitOnceEq h0 with
    | none =>
      simp only [hs]
      refine ⟨h0, _, rfl, List.mem_cons_self _ _, ?_⟩
      exact ⟨str2cp "Chunk \"", str2cp "\" not a name=value pair.", rfl⟩
    | some cnv =>
      simp only [hs]
      have hdec := splitOnceEq_decomp hs
      have heq61 : str2cp "=" = [61] := by decide
      cases hd1 : url_decode (utf8Encode cnv.1) with
      | error e =>
        simp only [hd1]
        refine ⟨h0, _, rfl, List.mem_cons_self _ _, ?_⟩
        refine ⟨str2cp "Error with chunk \"", str2cp "\": " ++ errStr e, ?_⟩
        rw [hdec.1, heq61]
        simp [List.append_assoc]
      | ok name =>
        simp only [hd1]
        cases hd2 : url_decode (utf8Encode cnv.2) with
        | error e =>
          simp only [hd2]
          refine ⟨h0, _, rfl, List.mem_cons_self _ _, ?_⟩
          refine ⟨str2cp "Error with chunk \"", str2cp "\": " ++ errStr e, ?_⟩
          rw [hdec.1, heq61]
          simp [List.append_assoc]
        | ok value =>
          simp only [hd2]
          have hcne : c ≠ h0 := by
            intro hh
            have h61c := findIdxNone_no61 c hno
            rw [hh] at h61c
            exact h61c hdec.2
          have hcr : c ∈ rest := by
            rcases List.mem_cons.mp hc with h | h
            · exact absurd h hcne
            · exact h
          obtain ⟨t, msg, hres, htm, hinf⟩ := ih (hmInsert qmap name value) c hcr hno
          exact ⟨t, msg, hres, List.mem_cons_of_mem _ htm, hinf⟩

/-- ASCII hexadecimal digits are ASCII. -/
theorem hexDigit_le {b : Nat} (h : isHexDigit b = true) : b ≤ 127 := by
  simp only [isHexDigit, Bool.or_eq_true, Bool.and_eq_true, decide_eq_true_eq] at h
  omega

/-- Two ASCII bytes always form valid UTF-8. -/
theorem utf8Valid_pair {a b : Nat} (ha : a ≤ 127) (hb : b ≤ 127) :
    utf8Valid [a, b] = true := by
  simp [utf8Valid, utf8ValidF, utf8Step, ha, hb]

/-- One-step unfolding of `specDecodeScan` with an abstract tail. -/
theorem specDecodeScan_cons (b : Nat) (rest : List Nat) :
    specDecodeScan (b :: rest) =
      (if b = 43 then (specDecodeScan rest).map (fun out => 32 :: out)
       else if b = 37 then
         match rest with
         | d1 :: d2 :: r =>
           if isHexDigit d1 && isHexDigit d2 then
             (specDecodeScan r).map (fun out => (16 * hexDigitVal d1 + hexDigitVal d2) :: out)
           else none
         | _ => none
       else (specDecodeScan rest).map (fun out => b :: out)) := by
  cases rest with
  | nil => rfl
  | cons d1 t1 =>
    cases t1 with
    | nil => rfl
    | cons d2 r => rfl

/-- When the byte-by-byte scan of the spec succeeds from index `idx`, the
`url_decode` loop run with enough fuel performs exactly that scan and then
the final UTF-8 validation. -/
theorem c8_aux (bytes : List Nat) :
    ∀ fuel idx acc out, bytes.length - idx < fuel →
      specDecodeScan (bytes.drop idx) = some out →
      urlDecodeCoreF bytes fuel idx acc =
        (if utf8Valid (acc ++ out) = true then .ok (utf8LossyDecode (acc ++ out))
         else .err (str2cp "Not valid UTF-8: " ++ utf8ErrText (acc ++ out))) := by
  intro fuel
  induction fuel with
  | zero => intro idx acc out hk _; omega
  | succ fuel ih =>
    intro idx acc out hk hscan
    by_cases hidx : idx < bytes.length
    · have hd : bytes.drop idx = bytes[idx] :: bytes.drop (idx + 1) :=
        List.drop_eq_getElem_cons hidx
      rw [hd] at hscan
      rw [urlDecodeCoreF, if_pos hidx]
      simp only [List.getElem?_eq_getElem hidx]
      by_cases hb43 : bytes[idx] = 43
      · rw [if_pos hb43]
        rw [specDecodeScan_cons, if_pos hb43] at hscan
        obtain ⟨out2, hout2, hout2e⟩ := Option.map_eq_some'.mp hscan
        subst hout2e
        rw [ih (idx + 1) (acc ++ [32]) out2 (by omega) hout2]
        have happ : acc ++ [32] ++ out2 = acc ++ 32 :: out2 := by simp
        rw [happ]
      · rw [if_neg hb43]
        by_cases hb37 : bytes[idx] = 37
        · rw [if_pos hb37]
          cases hdrop : bytes.drop (idx + 1) with
          | nil =>
            rw [hdrop] at hscan
            rw [hb37] at hscan
            simp [specDecodeScan] at hscan
          | cons d1 t1 =>
            cases t1 with
            | nil =>
              rw [hdrop] at hscan
              rw [hb37] at hscan
              simp [specDecodeScan] at hscan
            | cons d2 r =>
              rw [hdrop] at hscan
              rw [specDecodeScan_cons, if_neg hb43, if_pos hb37] at hscan
              by_cases hhex : (isHexDigit d1 && isHexDigit d2) = true
              · simp only [hhex, if_true] at hscan
                obtain ⟨out2, hout2, hout2e⟩ := Option.map_eq_some'.mp hscan
                subst hout2e
                have htake : List.take 2 (d1 :: d2 :: r) = [d1, d2] := rfl
                simp only [htake]
                obtain ⟨hhx1, hhx2⟩ := Bool.and_eq_true_iff.mp hhex
                rw [if_pos (utf8Valid_pair (hexDigit_le hhx1) (hexDigit_le hhx2))]
                have hfrs : fromStrRadix16 d1 d2 =
                    some (16 * hexDigitVal d1 + hexDigitVal d2) := by
                  rw [fromStrRadix16, if_pos hhex]
                simp only [hfrs]
                have hdrop3 : bytes.drop (idx + 3) = r := by
                  have h1 : List.drop 2 (List.drop (idx + 1) bytes) = r := by
                    rw [hdrop]
                    rfl
                  rw [List.drop_drop] at h1
                  convert h1 using 2
                rw [ih (idx + 3) (acc ++ [16 * hexDigitVal d1 + hexDigitVal d2]) out2
                  (by omega) (by rw [hdrop3]; exact hout2)]
                have happ : acc ++ [16 * hexDigitVal d1 + hexDigitVal d2] ++ out2 =
                    acc ++ (16 * hexDigitVal d1 + hexDigitVal d2) :: out2 := by simp
                rw [happ]
              · simp [hhex] at hscan
        · rw [if_neg hb37]
          rw [specDecodeScan_cons, if_neg hb43, if_neg hb37] at hscan
          obtain ⟨out2, hout2, hout2e⟩ := Option.map_eq_some'.mp hscan
          subst hout2e
          rw [ih (idx + 1) (acc ++ [bytes[idx]]) out2 (by omega) hout2]
          have happ : acc ++ [bytes[idx]] ++ out2 = acc ++ bytes[idx] :: out2 := by
            simp
          rw [happ]
    · have hd : bytes.drop idx = [] := List.drop_eq_nil_of_le (by omega)
      rw [hd] at hscan
      simp only [specDecodeScan, Option.some.injEq] at hscan
      subst hscan
      rw [urlDecodeCoreF, if_neg hidx, List.append_nil]

/-- Looking up the key just inserted. -/
theorem hmGet_insert_self (m : List (Str × Str)) (k v : Str) :
    hmGet (hmInsert m k v) k = some v := by
  simp [hmGet, hmInsert]

/-- `find?` ignores entries removed by a filter on a different key. -/
theorem find?_filter_ne {k k2 : Str} (h : k2 ≠ k) :
    ∀ m : List (Str × Str),
      (m.filter (fun p => p.1 ≠ k)).find? (fun p => p.1 = k2) =
        m.find? (fun p => p.1 = k2) := by
  intro m
  induction m with
  | nil => rfl
  | cons a t ih =>
    by_cases ha : a.1 = k
    · rw [List.filter_cons_of_neg (by simp [ha])]
      rw [ih]
      rw [List.find?_cons_of_neg _ (by simp [ha]; exact fun hh => h hh.symm)]
    · rw [List.filter_cons_of_pos (by simp [ha])]
      by_cases ha2 : a.1 = k2
      · rw [List.find?_cons_of_pos _ (by simp [ha2]), List.find?_cons_of_pos _ (by simp [ha2])]
      · rw [List.find?_cons_of_neg _ (by simp [ha2]), List.find?_cons_of_neg _ (by simp [ha2])]
        exact ih

/-- Looking up a different key than the inserted one. -/
theorem hmGet_insert_ne (m : List (Str × Str)) (k v k2 : Str) (h : k2 ≠ k) :
    hmGet (hmInsert m k v) k2 = hmGet m k2 := by
  simp only [hmGet, hmInsert]
  rw [List.find?_cons_of_neg _ (by simp; exact fun hh => h hh.symm), find?_filter_ne h]

/-- Keys present in the headers accumulator stay present. -/
theorem classify_headers_preserve :
    ∀ (env : List (Str × Str)) (vs hs : List (Str × Str)) (name : Str),
      (hmGet hs name).isSome = true →
      (hmGet (classifyEnvAux vs hs env).2 name).isSome = true := by
  intro env
  induction env with
  | nil => intro vs hs name h; exact h
  | cons e rest ih =>
    intro vs hs name h
    obtain ⟨k, v⟩ := e
    rw [classifyEnvAux]
    by_cases hp : (str2cp "HTTP_").isPrefixOf k = true
    · rw [if_pos hp]
      apply ih
      by_cases hn : name = normHeaderKey k
      · rw [hn, hmGet_insert_self]; rfl
      · rw [hmGet_insert_ne _ _ _ _ hn]; exact h
    · rw [if_neg hp]
      exact ih _ _ _ h

/-- Keys present in the vars accumulator stay present. -/
theorem classify_vars_preserve :
    ∀ (env : List (Str × Str)) (vs hs : List (Str × Str)) (name : Str),
      (hmGet vs name).isSome = true →
      (hmGet (classifyEnvAux vs hs env).1 name).isSome = true := by
  intro env
  induction env with
  | nil => intro vs hs name h; exact h
  | cons e rest ih =>
    intro vs hs name h
    obtain ⟨k, v⟩ := e
    rw [classifyEnvAux]
    by_cases hp : (str2cp "HTTP_").isPrefixOf k = true
    · rw [if_pos hp]
      exact ih _ _ _ h
    · rw [if_neg hp]
      apply ih
      by_cases hn : name = strToUpper k
      · rw [hn, hmGet_insert_self]; rfl
      · rw [hmGet_insert_ne _ _ _ _ hn]; exact h

/-- Every `HTTP_`-prefixed env entry ends up in the headers map under its
normalised key. -/
theorem classify_headers_mem :
    ∀ (env : List (Str × Str)) (vs hs : List (Str × Str)) (k v : Str),
      (k, v) ∈ env → (str2cp "HTTP_").isPrefixOf k = true →
      (hmGet (classifyEnvAux vs hs env).2 (normHeaderKey k)).isSome = true := by
  intro env
  induction env with
  | nil => intro vs hs k v hm; simp at hm
  | cons e rest ih =>
    intro vs hs k v hm hp
    obtain ⟨k0, v0⟩ := e
    rw [classifyEnvAux]
    rcases List.mem_cons.mp hm with he | hr
    · obtain ⟨rfl, rfl⟩ := Prod.mk.injEq .. ▸ he
      rw [if_pos hp]
      apply classify_headers_preserve
      rw [hmGet_insert_self]
      rfl
    · by_cases hp0 : (str2cp "HTTP_").isPrefixOf k0 = true
      · rw [if_pos hp0]
        exact ih _ _ _ _ hr hp
      · rw [if_neg hp0]
        exact ih _ _ _ _ hr hp

/-- Every non-`HTTP_` env entry ends up in the vars map upper-cased. -/
theorem classify_vars_mem :
    ∀ (env : List (Str × Str)) (vs hs : List (Str × Str)) (k v : Str),
      (k, v) ∈ env → ¬ (str2cp "HTTP_").isPrefixOf k = true →
      (hmGet (classifyEnvAux vs hs env).1 (strToUpper k)).isSome = true := by
  intro env
  induction env with
  | nil => intro vs hs k v hm; simp at hm
  | cons e rest ih =>
    intro vs hs k v hm hp
    obtain ⟨k0, v0⟩ := e
    rw [classifyEnvAux]
    rcases List.mem_cons.mp hm with he | hr
    · obtain ⟨rfl, rfl⟩ := Prod.mk.injEq .. ▸ he
      rw [if_neg hp]
      apply classify_vars_preserve
      rw [hmGet_insert_self]
      rfl
    · by_cases hp0 : (str2cp "HTTP_").isPrefixOf k0 = true
      · rw [if_pos hp0]
        exact ih _ _ _ _ hr hp
      · rw [if_neg hp0]
        exact ih _ _ _ _ hr hp

/-- A binding in the final headers map comes from the accumulator or from
an `HTTP_`-prefixed env entry with the matching normalised key. -/
theorem classify_headers_origin :
    ∀ (env : List (Str × Str)) (vs hs : List (Str × Str)) (name v2 : Str),
      hmGet (classifyEnvAux vs hs env).2 name = some v2 →
      hmGet hs name = some v2 ∨
      ∃ k v, (k, v) ∈ env ∧ (str2cp "HTTP_").isPrefixOf k = true ∧
        normHeaderKey k = name ∧ v = v2 := by
  intro env
  induction env with
  | nil => intro vs hs name v2 h; exact Or.inl h
  | cons e rest ih =>
    intro vs hs name v2 h
    obtain ⟨k0, v0⟩ := e
    rw [classifyEnvAux] at h
    by_cases hp0 : (str2cp "HTTP_").isPrefixOf k0 = true
    · rw [if_pos hp0] at h
      rcases ih _ _ _ _ h with hacc | ⟨k, v, hm, hkp, hkn, hkv⟩
      · by_cases hn : name = normHeaderKey k0
        · rw [hn, hmGet_insert_self] at hacc
          right
          exact ⟨k0, v0, List.mem_cons_self _ _, hp0, hn.symm, (Option.some.inj hacc)⟩
        · rw [hmGet_insert_ne _ _ _ _ hn] at hacc
          exact Or.inl hacc
      · exact Or.inr ⟨k, v, List.mem_cons_of_mem _ hm, hkp, hkn, hkv⟩
    · rw [if_neg hp0] at h
      rcases ih _ _ _ _ h with hacc | ⟨k, v, hm, hkp, hkn, hkv⟩
      · exact Or.inl hacc
      · exact Or.inr ⟨k, v, List.mem_cons_of_mem _ hm, hkp, hkn, hkv⟩

/-- A binding in the final vars map comes from the accumulator or from a
non-`HTTP_` env entry with the matching upper-cased key. -/
theorem classify_vars_origin :
    ∀ (env : List (Str × Str)) (vs hs : List (Str × Str)) (name v2 : Str),
      hmGet (classifyEnvAux vs hs env).1 name = some v2 →
      hmGet vs name = some v2 ∨
      ∃ k v, (k, v) ∈ env ∧ ¬ (str2cp "HTTP_").isPrefixOf k = true ∧
        strToUpper k = name ∧ v = v2 := by
  intro env
  induction env with
  | nil => intro vs hs name v2 h; exact Or.inl h
  | cons e rest ih =>
    intro vs hs name v2 h
    obtain ⟨k0, v0⟩ := e
    rw [classifyEnvAux] at h
    by_cases hp0 : (str2cp "HTTP_").isPrefixOf k0 = true
    · rw [if_pos hp0] at h
      rcases ih _ _ _ _ h with hacc | ⟨k, v, hm, hkp, hkn, hkv⟩
      · exact Or.inl hacc
      · exact Or.inr ⟨k, v, List.mem_cons_of_mem _ hm, hkp, hkn, hkv⟩
    · rw [if_neg hp0] at h
      rcases ih _ _ _ _ h with hacc | ⟨k, v, hm, hkp, hkn, hkv⟩
      · by_cases hn : name = strToUpper k0
        · rw [hn, hmGet_insert_self] at hacc
          right
          exact ⟨k0, v0, List.mem_cons_self _ _, hp0, hn.symm, (Option.some.inj hacc)⟩
        · rw [hmGet_insert_ne _ _ _ _ hn] at hacc
          exact Or.inl hacc
      · exact Or.inr ⟨k, v, List.mem_cons_of_mem _ hm, hkp, hkn, hkv⟩

/-! ## Claim theorems -/

/-- C1: the claim states that for every body buffer, starting position and
non-empty boundary delimiter, the chunk-end scan terminates, returning
either the index of the next `\r\n` immediately followed by the delimiter
or `None` at end-of-buffer. It does not: on the buffer `"\r\n"`, starting
position `0` and delimiter `"-"`, the first iteration finds the newline at
index 0, the guard `bytes.len() > post_newline_idx` fails (`2 > 2` is
false), the loop body leaves `pos` and `subslice` unchanged, and the Rust
loop re-finds the same newline forever, returning neither `Some` nor
`None`. -/
theorem c1_find_next_chunk_end_diverges_on_trailing_newline :
    find_next_multipart_chunk_end [13, 10] 0 [45] = ScanResult.diverges := by
  decide

/-- C2: whenever the delimiter `"--" ++ boundary` occurs in the body but
its first occurrence is not immediately followed by `\r\n` — including when
fewer than three bytes remain after it — `read_multipart_body` returns a
successful `Body::Multipart` with zero parts, not an error. -/
theorem c2_boundary_without_newline_gives_empty_multipart
    (body boundary : List Nat) (n : Nat)
    (hfind : slicey_find body ([45, 45] ++ boundary) = some n)
    (hnot : ¬ (body.length > n + ([45, 45] ++ boundary).length + 2 ∧
      extract body (n + ([45, 45] ++ boundary).length)
        (n + ([45, 45] ++ boundary).length + 2) = [13, 10])) :
    read_multipart_body body boundary = some (Body.multipart []) := by
  rw [rmb_some_eq body boundary n hfind]
  by_cases hlen : body.length > n + ([45, 45] ++ boundary).length + 2
  · have hext : ¬ (extract body (n + ([45, 45] ++ boundary).length)
        (n + ([45, 45] ++ boundary).length + 2) = [13, 10]) :=
      fun he => hnot ⟨hlen, he⟩
    rw [if_pos hlen, if_neg hext]
  · rw [if_neg hlen]

/-- C2 witness: in the body `"--B!!xxx"` with boundary token `"B"`, the
delimiter `--B` occurs at index 0 but is followed by `"!!"`, and the parse
succeeds with zero parts. -/
theorem c2_witness :
    read_multipart_body (str2cp "--B!!xxx") (str2cp "B") = some (Body.multipart []) :=
  c2_boundary_without_newline_gives_empty_multipart (str2cp "--B!!xxx") (str2cp "B") 0
    (by decide) (by decide)

/-- C3: `read_multipart_body` reports an error if and only if the delimiter
`"--" ++ boundary` occurs nowhere in the body; in that case the error is
the `InputError` `"multipart body missing boundary string"`, and no other
input that the function returns on produces a `Body::Err`. -/
theorem c3_error_iff_boundary_missing (body boundary : List Nat) :
    (slicey_find body ([45, 45] ++ boundary) = none →
      read_multipart_body body boundary =
        some (Body.err (.inputError (str2cp "multipart body missing boundary string")))) ∧
    (∀ e, read_multipart_body body boundary = some (Body.err e) →
      slicey_find body ([45, 45] ++ boundary) = none ∧
      e = .inputError (str2cp "multipart body missing boundary string")) := by
  constructor
  · intro h
    unfold read_multipart_body
    rw [h]
  · intro e he
    cases hf : slicey_find body ([45, 45] ++ boundary) with
    | none =>
      unfold read_multipart_body at he
      rw [hf] at he
      simp only [Option.some.injEq, Body.err.injEq] at he
      exact ⟨rfl, he.symm⟩
    | some n =>
      exfalso
      rw [rmb_some_eq body boundary n hf] at he
      by_cases h1 : body.length > n + ([45, 45] ++ boundary).length + 2
      · rw [if_pos h1] at he
        by_cases h2 : extract body (n + ([45, 45] ++ boundary).length)
            (n + ([45, 45] ++ boundary).length + 2) = [13, 10]
        · rw [if_pos h2] at he
          cases hc : chunkLoop body ([45, 45] ++ boundary)
              (n + ([45, 45] ++ boundary).length + 2) [] with
          | none => rw [hc] at he; simp at he
          | some chunks => rw [hc] at he; simp at he
        · rw [if_neg h2] at he
          simp at he
      · rw [if_neg h1] at he
        simp at he

/-- C3 witness: the body `"hello"` does not contain `--B`, and the parse
fails with the documented `InputError`. -/
theorem c3_witness :
    read_multipart_body (str2cp "hello") (str2cp "B") =
      some (Body.err (.inputError (str2cp "multipart body missing boundary string"))) :=
  (c3_error_iff_boundary_missing (str2cp "hello") (str2cp "B")).1 (by decide)

/-- C10: when the `QUERY_STRING` variable is present with an empty value,
the query result is `Query::Err` (splitting the empty string on `&` yields
one empty chunk, which contains no `=`), not `Query::None` and not a
successful empty map. -/
theorem c10_empty_query_string_is_err (env : List (Str × Str))
    (h : hmGet (classifyEnv env).1 (str2cp "QUERY_STRING") = some []) :
    request_query env =
      Query.err (.inputError (str2cp "Chunk \"\" not a name=value pair.")) := by
  unfold request_query
  rw [h]
  decide

/-- C10 witness: an environment consisting of `QUERY_STRING=` (empty value)
produces the error result. -/
theorem c10_witness :
    request_query [(str2cp "QUERY_STRING", [])] =
      Query.err (.inputError (str2cp "Chunk \"\" not a name=value pair.")) :=
  c10_empty_query_string_is_err [(str2cp "QUERY_STRING", [])] (by decide)

/-- C5 counterexample: the chunk `"hello\r\nworld"` has an empty header
block (its first line, `"hello"`, has no colon and so is not a header
line; the payload starts immediately), yet `read_multipart_chunk` returns
body `"world"` — the loop consumes the first non-header line as if it were
the blank separator — so the body is not the full chunk and the claim as
stated is false. -/
theorem c5_counterexample :
    read_multipart_chunk (str2cp "hello\r\nworld") =
      .ok ⟨[], str2cp "world"⟩ ∧
    ¬ read_multipart_chunk (str2cp "hello\r\nworld") =
      .ok ⟨[], str2cp "hello\r\nworld"⟩ := by
  decide

/-- C5 (amended): a chunk that contains no `\r\n` at all parses to a part
with an empty header map and the full chunk as body; a chunk that begins
with the `\r\n` blank line of an explicitly empty header block parses to a
part with an empty header map and everything after that first `\r\n` as
body; and in every case the routine returns a part — it never surfaces a
failure to its caller. -/
theorem c5_empty_header_block_amended :
    (∀ chunk : List Nat, slicey_find chunk [13, 10] = none →
      read_multipart_chunk chunk = .ok ⟨[], chunk⟩) ∧
    (∀ payload : List Nat,
      read_multipart_chunk ([13, 10] ++ payload) = .ok ⟨[], payload⟩) ∧
    (∀ chunk : List Nat, ∃ p, read_multipart_chunk chunk = .ok p) := by
  refine ⟨?_, ?_, ?_⟩
  · intro chunk hsf
    unfold read_multipart_chunk rmcLoop
    rw [rmcLoopF]
    rw [List.drop_zero, hsf]
    rfl
  · intro payload
    unfold read_multipart_chunk rmcLoop
    rw [rmcLoopF]
    have h1 : slicey_find (([13, 10] ++ payload).drop 0) [13, 10] = some 0 := by
      rw [List.drop_zero]
      unfold slicey_find
      rw [if_neg (by simp)]
      exact sf_from_pfx_zero (by simp) (by simp [List.isPrefixOf])
    rw [h1]
    rfl
  · intro chunk
    exact ⟨_, rfl⟩

/-- C5 witness for the amended claim: `"a:b"` (no CRLF) parses to an empty
header map with the full chunk as body, and `"\r\nhello"` (explicit empty
header block) parses to an empty header map with body `"hello"`. -/
theorem c5_witness :
    read_multipart_chunk (str2cp "a:b") = .ok ⟨[], str2cp "a:b"⟩ ∧
    read_multipart_chunk ([13, 10] ++ str2cp "hello") = .ok ⟨[], str2cp "hello"⟩ :=
  ⟨(c5_empty_header_block_amended).1 (str2cp "a:b") (by decide),
   (c5_empty_header_block_amended).2.1 (str2cp "hello")⟩

/-- C7: for every input whose bytes contain a `%` with fewer than two bytes
remaining (the string ends mid-escape), `url_decode` fails with an
`InputError`; and for every input whatsoever the scanning loop never
performs its one unchecked read out of bounds (it never "panics" /
never reads past the end of the buffer). -/
theorem c7_truncated_escape_errs_and_no_oob :
    (∀ bytes p, bytes[p]? = some 37 → bytes.length < p + 3 →
      ∃ m, url_decode bytes = .error (.inputError m)) ∧
    (∀ bytes idx acc, urlDecodeCore bytes idx acc ≠ .panicOOB) := by
  constructor
  · intro bytes p hp hlen
    obtain ⟨m, hm⟩ := urlDecode_trailing_escape_aux bytes (bytes.length + 1) 0 []
      (by omega) ⟨p, Nat.zero_le _, hp, hlen⟩
    refine ⟨m, ?_⟩
    unfold url_decode urlDecodeCore
    rw [hm]
  · exact urlDecodeCore_ne_panic

/-- C7 witness: `"abc%2"` ends mid-escape (the `%` at index 3 has one byte
after it) and decoding it fails with an `InputError`; the loop on that
input performs no out-of-bounds read. -/
theorem c7_witness :
    (∃ m, url_decode (str2cp "abc%2") = .error (.inputError m)) ∧
    urlDecodeCore (str2cp "abc%2") 0 [] ≠ .panicOOB :=
  ⟨c7_truncated_escape_errs_and_no_oob.1 (str2cp "abc%2") 3 (by decide) (by decide),
   c7_truncated_escape_errs_and_no_oob.2 (str2cp "abc%2") 0 []⟩

/-- C6: a query string containing an `&`-separated chunk with no `=` makes
`parse_query_string` return a single `Query::Err` for the entire query —
not a partial map and not a map skipping the bad chunk — and the error
diagnostic embeds the text of the chunk that triggered the failure. -/
theorem c6_chunk_without_eq_fails_whole_query (qstr c : Str)
    (hc : c ∈ qstr.splitOn 38) (hno : c.findIdx? (fun x => x = 61) = none) :
    ∃ t msg, parse_query_string qstr = Query.err (.inputError msg) ∧
      t ∈ qstr.splitOn 38 ∧ t <:+: msg := by
  unfold parse_query_string
  exact pqsGo_err_of_chunk_without_eq (qstr.splitOn 38) [] c hc hno

/-- C6 witness: in `"a=1&bogus"` the chunk `"bogus"` has no `=`, and the
whole query decodes to an error whose diagnostic embeds a chunk text. -/
theorem c6_witness :
    ∃ t msg,
      parse_query_string (str2cp "a=1&bogus") = Query.err (.inputError msg) ∧
      t ∈ (str2cp "a=1&bogus").splitOn 38 ∧ t <:+: msg :=
  c6_chunk_without_eq_fails_whole_query (str2cp "a=1&bogus") (str2cp "bogus")
    (by decide) (by decide)

/-- C8: for every input whose `%`-escapes are all complete and hex-valid
and whose assembled byte sequence is valid UTF-8, `url_decode` succeeds and
returns exactly the string produced by the byte-by-byte scan (`+` to space,
`%XX` to the byte with hexadecimal value `XX`, all else verbatim). -/
theorem c8_decode_matches_bytewise_scan (bytes out : List Nat)
    (hscan : specDecodeScan bytes = some out) (hvalid : utf8Valid out = true) :
    url_decode bytes = .ok (utf8LossyDecode out) := by
  have h := c8_aux bytes (bytes.length + 1) 0 [] out (by omega)
    (by rw [List.drop_zero]; exact hscan)
  simp only [List.nil_append] at h
  unfold url_decode urlDecodeCore
  rw [h, if_pos hvalid]

/-- C8 witness: decoding `"a+b%20c"` yields `"a b c"`. -/
theorem c8_witness :
    specDecodeScan (str2cp "a+b%20c") = some [97, 32, 98, 32, 99] ∧
    url_decode (str2cp "a+b%20c") = .ok (str2cp "a b c") := by
  constructor
  · decide
  · rw [c8_decode_matches_bytewise_scan (str2cp "a+b%20c") [97, 32, 98, 32, 99]
      (by decide) (by decide)]
    decide

/-- C9: `Request::new` classifies every `HTTP_`-prefixed environment key
into the headers map under the key obtained by stripping the prefix,
replacing `_` with `-` and lower-casing, and every other key into the vars
map upper-cased; conversely every binding in the headers (resp. vars) map
originates from such an entry — so a plain variable like `REQUEST_METHOD`
never appears among the headers. -/
theorem c9_env_classification (env : List (Str × Str)) :
    (∀ k v, (k, v) ∈ env → (str2cp "HTTP_").isPrefixOf k = true →
      (hmGet (classifyEnv env).2 (normHeaderKey k)).isSome = true) ∧
    (∀ k v, (k, v) ∈ env → ¬ (str2cp "HTTP_").isPrefixOf k = true →
      (hmGet (classifyEnv env).1 (strToUpper k)).isSome = true) ∧
    (∀ name v2, hmGet (classifyEnv env).2 name = some v2 →
      ∃ k v, (k, v) ∈ env ∧ (str2cp "HTTP_").isPrefixOf k = true ∧
        normHeaderKey k = name ∧ v = v2) ∧
    (∀ name v2, hmGet (classifyEnv env).1 name = some v2 →
      ∃ k v, (k, v) ∈ env ∧ ¬ (str2cp "HTTP_").isPrefixOf k = true ∧
        strToUpper k = name ∧ v = v2) := by
  refine ⟨?_, ?_, ?_, ?_⟩
  · intro k v hm hp
    exact classify_headers_mem env [] [] k v hm hp
  · intro k v hm hp
    exact classify_vars_mem env [] [] k v hm hp
  · intro name v2 h
    rcases classify_headers_origin env [] [] name v2 h with hacc | hk
    · simp [hmGet] at hacc
    · exact hk
  · intro name v2 h
    rcases classify_vars_origin env [] [] name v2 h with hacc | hk
    · simp [hmGet] at hacc
    · exact hk

/-- C9 witness: `HTTP_X_CUSTOM_HEADER` produces header key
`x-custom-header`, `REQUEST_METHOD` produces var key `REQUEST_METHOD`, and
no `request-method`-like key appears among the headers. -/
theorem c9_witness :
    (hmGet (classifyEnv [(str2cp "HTTP_X_CUSTOM_HEADER", str2cp "v1"),
        (str2cp "REQUEST_METHOD", str2cp "GET")]).2
      (normHeaderKey (str2cp "HTTP_X_CUSTOM_HEADER"))).isSome = true ∧
    normHeaderKey (str2cp "HTTP_X_CUSTOM_HEADER") = str2cp "x-custom-header" ∧
    (hmGet (classifyEnv [(str2cp "HTTP_X_CUSTOM_HEADER", str2cp "v1"),
        (str2cp "REQUEST_METHOD", str2cp "GET")]).1
      (strToUpper (str2cp "REQUEST_METHOD"))).isSome = true ∧
    strToUpper (str2cp "REQUEST_METHOD") = str2cp "REQUEST_METHOD" ∧
    hmGet (classifyEnv [(str2cp "HTTP_X_CUSTOM_HEADER", str2cp "v1"),
        (str2cp "REQUEST_METHOD", str2cp "GET")]).2 (str2cp "request-method") = none :=
  ⟨(c9_env_classification _).1 (str2cp "HTTP_X_CUSTOM_HEADER") (str2cp "v1")
      (by decide) (by decide),
   by decide,
   (c9_env_classification _).2.1 (str2cp "REQUEST_METHOD") (str2cp "GET")
      (by decide) (by decide),
   by decide,
   by decide⟩

/-! ## Scan characterisation lemmas (towards C4) -/

theorem dropAt (l : List Nat) (a b : Nat) : (l.drop a).drop b = l.drop (a + b) := by
  rw [List.drop_drop]

theorem pfx_pair_iff (a b : Nat) (l : List Nat) :
    ([a, b].isPrefixOf l) = true ↔ ∃ t, l = a :: b :: t := by
  constructor
  · intro h
    rw [pfx_trans_take] at h
    refine ⟨l.drop 2, ?_⟩
    conv_lhs => rw [← List.take_append_drop 2 l]
    rw [show l.take 2 = [a, b] from h]
    rfl
  · rintro ⟨t, rfl⟩
    simp [List.isPrefixOf]

theorem crlf_no_overlap {l : List Nat} {j : Nat}
    (h1 : [13, 10].isPrefixOf (l.drop j) = true)
    (h2 : [13, 10].isPrefixOf (l.drop (j + 1)) = true) : False := by
  obtain ⟨t, ht⟩ := (pfx_pair_iff 13 10 (l.drop j)).mp h1
  obtain ⟨t2, ht2⟩ := (pfx_pair_iff 13 10 (l.drop (j + 1))).mp h2
  have hd : l.drop (j + 1) = (l.drop j).drop 1 := by rw [dropAt]
  rw [ht] at hd
  rw [hd] at ht2
  simp at ht2

theorem pfx_append_split (x y l : List Nat) :
    ((x ++ y).isPrefixOf l) = true ↔
      (x.isPrefixOf l = true ∧ y.isPrefixOf (l.drop x.length) = true) := by
  induction x generalizing l with
  | nil => simp [List.isPrefixOf]
  | cons a t ih =>
    cases l with
    | nil => simp [List.isPrefixOf]
    | cons b bs =>
      simp only [List.cons_append, List.isPrefixOf, Bool.and_eq_true, beq_iff_eq,
        List.length_cons, List.drop_succ_cons, List.append_eq]
      rw [ih bs]
      tauto

theorem pfx_append_left {p x : List Nat} (b : List Nat) (h : p.length ≤ x.length) :
    (p.isPrefixOf (x ++ b)) = p.isPrefixOf x := by
  induction p generalizing x with
  | nil => simp [List.isPrefixOf]
  | cons c t ih =>
    cases x with
    | nil => simp at h
    | cons d ds =>
      simp only [List.cons_append, List.isPrefixOf, List.append_eq]
      have h2 : t.length ≤ ds.length := by simpa using h
      rw [ih h2]

/-- Unfolding of the scan loop when the newline search succeeds. -/
theorem fncGoF_succ_some (bytes bnd : List Nat) (fuel pos n : Nat)
    (hsf : slicey_find (bytes.drop pos) [13, 10] = some n) :
    fncGoF bytes bnd (fuel + 1) pos =
      (if bytes.length > pos + n + 2 then
        if bnd.isPrefixOf (bytes.drop (pos + n + 2)) then .found (pos + n)
        else fncGoF bytes bnd fuel (pos + n + 2)
      else .diverges) := by
  rw [fncGoF, hsf]

/-- The chunk-end scan finds the smallest qualifying index: a `\r\n` at `i`
with room after it and the boundary right after, provided no earlier
position in `[pos, i)` carries a `\r\n` followed by the boundary. -/
theorem fncGoF_min (bytes bnd : List Nat) (i : Nat)
    (hnl : [13, 10].isPrefixOf (bytes.drop i) = true)
    (hlen : i + 2 < bytes.length)
    (hbd : bnd.isPrefixOf (bytes.drop (i + 2)) = true) :
    ∀ fuel pos, bytes.length - pos < fuel → pos ≤ i →
      (∀ j, pos ≤ j → j < i →
        ¬([13, 10].isPrefixOf (bytes.drop j) = true ∧
          bnd.isPrefixOf (bytes.drop (j + 2)) = true)) →
      fncGoF bytes bnd fuel pos = .found i := by
  intro fuel
  induction fuel with
  | zero => intro pos hk hpi _; omega
  | succ fuel ih =>
    intro pos hk hpi hmin
    have hidrop : [13, 10].isPrefixOf ((bytes.drop pos).drop (i - pos)) = true := by
      rw [dropAt, show pos + (i - pos) = i from by omega]
      exact hnl
    cases hsf : slicey_find (bytes.drop pos) [13, 10] with
    | none =>
      exfalso
      have he : slicey_find_from (bytes.drop pos) [13, 10] = none := by
        simpa [slicey_find] using hsf
      have hn := sf_from_none (by simp) he (i - pos)
      rw [hn] at hidrop
      simp at hidrop
    | some n =>
      have hsf2 : slicey_find_from (bytes.drop pos) [13, 10] = some n := by
        simpa [slicey_find] using hsf
      have hpfxn : [13, 10].isPrefixOf (bytes.drop (pos + n)) = true := by
        have h0 := sf_from_some_pfx hsf2
        rwa [dropAt] at h0
      have hn_le : n ≤ i - pos := by
        by_contra hgt
        have h0 := sf_from_some_min hsf2 (i - pos) (by omega)
        rw [h0] at hidrop
        simp at hidrop
      rw [fncGoF_succ_some bytes bnd fuel pos n hsf]
      by_cases hji : pos + n = i
      · have hcond : bytes.length > pos + n + 2 := by omega
        rw [if_pos hcond]
        have hb : bnd.isPrefixOf (bytes.drop (pos + n + 2)) = true := by
          rw [show pos + n + 2 = i + 2 from by omega]
          exact hbd
        rw [if_pos hb, hji]
      · have hjlt : pos + n < i := by omega
        have hj2 : pos + n + 2 ≤ i := by
          by_contra h2
          have hj1 : pos + n + 1 = i := by omega
          exact crlf_no_overlap hpfxn (by rw [hj1]; exact hnl)
        have hcond : bytes.length > pos + n + 2 := by omega
        rw [if_pos hcond]
        have hnb : ¬ bnd.isPrefixOf (bytes.drop (pos + n + 2)) = true := by
          intro hbp
          exact hmin (pos + n) (by omega) hjlt ⟨hpfxn, hbp⟩
        rw [if_neg hnb]
        exact ih (pos + n + 2) (by omega) (by omega)
          (fun j2 hj2a hj2b => hmin j2 (by omega) hj2b)

/-- `find_next_multipart_chunk_end` wrapper of `fncGoF_min`. -/
theorem find_next_min (bytes bnd : List Nat) (pos i : Nat)
    (hnl : [13, 10].isPrefixOf (bytes.drop i) = true)
    (hlen : i + 2 < bytes.length)
    (hbd : bnd.isPrefixOf (bytes.drop (i + 2)) = true)
    (hpi : pos ≤ i)
    (hmin : ∀ j, pos ≤ j → j < i →
      ¬([13, 10].isPrefixOf (bytes.drop j) = true ∧
        bnd.isPrefixOf (bytes.drop (j + 2)) = true)) :
    find_next_multipart_chunk_end bytes pos bnd = .found i := by
  unfold find_next_multipart_chunk_end fncGo
  rw [if_neg (by omega)]
  exact fncGoF_min bytes bnd i hnl hlen hbd (bytes.length + 1) pos (by omega) hpi hmin

/-! ## Chunk-level structure lemmas (towards C4) -/

/-- A list is a prefix of itself followed by anything. -/
theorem pfx_self_append (p t : List Nat) : p.isPrefixOf (p ++ t) = true := by
  rw [pfx_trans_take]
  exact List.take_left p t

/-- Dropping the length of the left part of a split. -/
theorem drop_pre (P S : List Nat) {l : List Nat} (h : l = P ++ S) {k : Nat}
    (hk : k = P.length) : l.drop k = S := by
  subst h hk
  exact List.drop_left P S

/-- `extract` of the middle segment of a three-way split. -/
theorem extract_of {l : List Nat} (P mid S : List Nat) (h : l = P ++ (mid ++ S))
    {a b : Nat} (ha : a = P.length) (hb : b = P.length + mid.length) :
    extract l a b = mid := by
  subst h ha hb
  unfold extract
  rw [List.take_append, List.take_left, List.drop_left]

/-- An empty `extract` window. -/
theorem extract_nil (l : List Nat) (a : Nat) : extract l a (a + 0) = [] := by
  unfold extract
  rw [List.drop_take]
  simp

/-- A header line containing no `\r\n`, followed by its terminator and
anything at all, has its first `\r\n` exactly at the end of the line. -/
theorem sf_line_crlf : ∀ (L rest : List Nat), slicey_find_from L [13, 10] = none →
    slicey_find_from (L ++ 13 :: 10 :: rest) [13, 10] = some L.length := by
  intro L
  induction L with
  | nil =>
    intro rest _
    rw [List.nil_append]
    exact sf_from_pfx_zero (by simp) (by simp [List.isPrefixOf])
  | cons a t ih =>
    intro rest h
    rw [slicey_find_from] at h
    by_cases hp : [13, 10].isPrefixOf (a :: t) = true
    · simp [hp] at h
    · simp [hp] at h
      have hnp : ¬([13, 10].isPrefixOf (a :: (t ++ 13 :: 10 :: rest)) = true) := by
        intro hc
        obtain ⟨u, hu⟩ := (pfx_pair_iff 13 10 _).mp hc
        cases t with
        | nil =>
          simp at hu
        | cons b t2 =>
          apply hp
          rw [List.cons_append] at hu
          simp only [List.cons.injEq] at hu
          exact (pfx_pair_iff 13 10 (a :: b :: t2)).mpr ⟨t2, by rw [hu.1, hu.2.1]⟩
      rw [List.cons_append, slicey_find_from, if_neg hnp, ih rest h]
      simp

/-- The first colon of a built header line sits right after the name. -/
theorem findIdx_colon (nm vl : List Nat) (h : ∀ x ∈ nm, ¬x = 58) :
    (nm ++ 58 :: vl).findIdx? (fun b => b = 58) = some nm.length := by
  have hlen : nm.length < (nm ++ 58 :: vl).length := by simp
  refine List.findIdx?_eq_some_iff_getElem.mpr ⟨hlen, ?_, ?_⟩
  · rw [List.getElem_append_right (le_refl nm.length)]
    simp
  · intro j hj
    rw [List.getElem_append_left hj]
    simpa using h _ (List.getElem_mem hj)

/-- `match_header` on a built header line whose name holds no colon. -/
theorem match_header_line (nm vl : List Nat) (h : ∀ x ∈ nm, ¬x = 58) :
    match_header (mkHeaderLine (nm, vl)) = some (normName nm, normVal vl) := by
  show match_header (nm ++ 58 :: vl) = some (normName nm, normVal vl)
  unfold match_header
  simp only [findIdx_colon nm vl h]
  have hd : (nm ++ 58 :: vl).drop (nm.length + 1) = vl := by
    rw [← dropAt, List.drop_left]
    rfl
  rw [List.take_left, hd]
  rfl

/-- `hdrcat` unfolding. -/
theorem hdrcat_cons (p : List Nat × List Nat) (t : List (List Nat × List Nat)) :
    hdrcat (p :: t) = (mkHeaderLine p ++ [13, 10]) ++ hdrcat t := by
  simp [hdrcat]

/-- Each header line contributes at least one byte to the header block. -/
theorem hdrcat_len (ls : List (List Nat × List Nat)) : ls.length ≤ (hdrcat ls).length := by
  induction ls with
  | nil => simp [hdrcat]
  | cons p t ih =>
    rw [hdrcat_cons]
    simp only [List.length_append, List.length_cons]
    omega

/-- The header loop of `read_multipart_chunk` on a chunk laid out as
`pre ++ header block ++ blank line ++ payload`, standing at the start of
the block: it consumes exactly the block and the blank line, folding each
line into the header map, provided no name holds a colon and no line holds
a `\r\n`. -/
theorem rmcLoopF_lines :
    ∀ (ls : List (List Nat × List Nat)) (fuel : Nat) (pre pay : List Nat)
      (hm : List (Str × Str)),
      ls.length < fuel →
      (∀ p ∈ ls, (∀ x ∈ p.1, ¬x = 58) ∧
        slicey_find_from (mkHeaderLine p) [13, 10] = none) →
      rmcLoopF (pre ++ (hdrcat ls ++ (13 :: 10 :: pay))) fuel pre.length hm =
        (pre.length + (hdrcat ls).length + 2,
         ls.foldl (fun m p => hmInsert m (normName p.1) (normVal p.2)) hm) := by
  intro ls
  induction ls with
  | nil =>
    intro fuel pre pay hm hfuel _
    cases fuel with
    | zero => omega
    | succ f =>
      rw [rmcLoopF]
      have hdrop : (pre ++ (hdrcat [] ++ (13 :: 10 :: pay))).drop pre.length =
          13 :: 10 :: pay := by
        rw [List.drop_left]
        rfl
      rw [hdrop]
      have hsf : slicey_find (13 :: 10 :: pay) [13, 10] = some 0 := by
        unfold slicey_find
        rw [if_neg (by simp)]
        exact sf_from_pfx_zero (by simp) (by simp [List.isPrefixOf])
      simp only [hsf]
      have hex := extract_nil (pre ++ (hdrcat [] ++ (13 :: 10 :: pay))) pre.length
      simp only [hex]
      have hmh : match_header [] = none := rfl
      simp only [hmh]
      simp [hdrcat]
  | cons p t ih =>
    intro fuel pre pay hm hfuel hl
    obtain ⟨nm, vl⟩ := p
    cases fuel with
    | zero => simp at hfuel
    | succ f =>
      obtain ⟨hp58, hpcrlf⟩ := hl (nm, vl) (by simp)
      have hlt : ∀ q ∈ t, (∀ x ∈ q.1, ¬x = 58) ∧
          slicey_find_from (mkHeaderLine q) [13, 10] = none :=
        fun q hq => hl q (by simp [hq])
      have hchunk : pre ++ (hdrcat ((nm, vl) :: t) ++ (13 :: 10 :: pay)) =
          pre ++ (mkHeaderLine (nm, vl) ++
            (13 :: 10 :: (hdrcat t ++ (13 :: 10 :: pay)))) := by
        rw [hdrcat_cons]
        simp [List.append_assoc]
      rw [hchunk, rmcLoopF]
      have hdrop : (pre ++ (mkHeaderLine (nm, vl) ++
          (13 :: 10 :: (hdrcat t ++ (13 :: 10 :: pay))))).drop pre.length =
          mkHeaderLine (nm, vl) ++ 13 :: 10 :: (hdrcat t ++ (13 :: 10 :: pay)) :=
        List.drop_left _ _
      rw [hdrop]
      have hsf : slicey_find (mkHeaderLine (nm, vl) ++
          13 :: 10 :: (hdrcat t ++ (13 :: 10 :: pay))) [13, 10] =
          some (mkHeaderLine (nm, vl)).length := by
        unfold slicey_find
        rw [if_neg (by simp)]
        exact sf_line_crlf _ _ hpcrlf
      simp only [hsf]
      have hex : extract (pre ++ (mkHeaderLine (nm, vl) ++
          (13 :: 10 :: (hdrcat t ++ (13 :: 10 :: pay)))))
          pre.length (pre.length + (mkHeaderLine (nm, vl)).length) =
          mkHeaderLine (nm, vl) :=
        extract_of pre (mkHeaderLine (nm, vl)) _ rfl rfl rfl
      simp only [hex]
      have hmh := match_header_line nm vl (by simpa using hp58)
      simp only [hmh]
      have hih := ih f (pre ++ (mkHeaderLine (nm, vl) ++ [13, 10])) pay
        (hmInsert hm (normName nm) (normVal vl)) (by simp at hfuel ⊢; omega) hlt
      have he : (pre ++ (mkHeaderLine (nm, vl) ++ [13, 10])) ++
          (hdrcat t ++ (13 :: 10 :: pay)) =
          pre ++ (mkHeaderLine (nm, vl) ++
            (13 :: 10 :: (hdrcat t ++ (13 :: 10 :: pay)))) := by
        simp [List.append_assoc]
      have hplen : (pre ++ (mkHeaderLine (nm, vl) ++ [13, 10])).length =
          pre.length + (mkHeaderLine (nm, vl)).length + 2 := by
        simp
        omega
      rw [he, hplen] at hih
      rw [hih, hdrcat_cons]
      simp only [List.foldl_cons, List.length_append, List.length_cons,
        List.length_nil, Prod.mk.injEq]
      exact ⟨by omega, trivial⟩

/-- `read_multipart_chunk` on a built chunk whose header names hold no
colon and whose header lines hold no `\r\n`: the lines fold into the
header map and the body is exactly the payload. -/
theorem read_multipart_chunk_mk (ls : List (List Nat × List Nat)) (pay : List Nat)
    (hl : ∀ p ∈ ls, (∀ x ∈ p.1, ¬x = 58) ∧
      slicey_find_from (mkHeaderLine p) [13, 10] = none) :
    read_multipart_chunk (mkChunk ls pay) = .ok ⟨mkHeaderMap ls, pay⟩ := by
  have hfuel : ls.length < (mkChunk ls pay).length + 1 := by
    have := hdrcat_len ls
    simp [mkChunk]
    omega
  have hloop := rmcLoopF_lines ls ((mkChunk ls pay).length + 1) [] pay [] hfuel hl
  simp only [List.nil_append, List.length_nil, Nat.zero_add] at hloop
  have hck : mkChunk ls pay = hdrcat ls ++ (13 :: 10 :: pay) := by
    simp [mkChunk]
  rw [hck] at hloop
  unfold read_multipart_chunk rmcLoop
  rw [hck, hloop]
  have hdp : (hdrcat ls ++ (13 :: 10 :: pay)).drop ((hdrcat ls).length + 2) = pay := by
    rw [← dropAt, List.drop_left]
    rfl
  simp only [hdp]
  rfl

/-- Unfolding of the chunk-collection loop: a chunk end is found and the
delimiter is followed by `\r\n`, so the loop records the chunk and goes on. -/
theorem chunkLoopF_found_cont (bytes bb : List Nat) (fuel position : Nat)
    (chunks : List (List Nat)) (i : Nat)
    (hf : find_next_multipart_chunk_end bytes position bb = .found i)
    (hlen : bytes.length ≥ i + 2 + bb.length + 2)
    (hcrlf : extract bytes (i + 2 + bb.length) (i + 2 + bb.length + 2) = [13, 10]) :
    chunkLoopF bytes bb (fuel + 1) position chunks =
      chunkLoopF bytes bb fuel (i + 2 + bb.length + 2)
        (chunks ++ [extract bytes position i]) := by
  rw [chunkLoopF]
  simp only [hf]
  rw [if_pos hlen, if_pos hcrlf]

/-- Unfolding of the chunk-collection loop: a chunk end is found but the
delimiter is not followed by `\r\n`, so the loop records the chunk and
stops. -/
theorem chunkLoopF_found_last (bytes bb : List Nat) (fuel position : Nat)
    (chunks : List (List Nat)) (i : Nat)
    (hf : find_next_multipart_chunk_end bytes position bb = .found i)
    (hlen : bytes.length ≥ i + 2 + bb.length + 2)
    (hncrlf : ¬extract bytes (i + 2 + bb.length) (i + 2 + bb.length + 2) = [13, 10]) :
    chunkLoopF bytes bb (fuel + 1) position chunks =
      some (chunks ++ [extract bytes position i]) := by
  rw [chunkLoopF]
  simp only [hf]
  rw [if_pos hlen, if_neg hncrlf]

/-- If a window of the buffer is known to hold no occurrence of the needle,
no position of the buffer inside that window starts the needle. -/
theorem window_min {B H R N : List Nat} {p c : Nat}
    (hw : B.drop p = H ++ R)
    (hH : c + N.length ≤ H.length)
    (hm : ∀ j, j < c → N.isPrefixOf (H.drop j) = false) :
    ∀ j, p ≤ j → j < p + c → N.isPrefixOf (B.drop j) = false := by
  intro j hj1 hj2
  have hj3 : j - p < c := by omega
  have hd : B.drop j = H.drop (j - p) ++ R := by
    have h1 : B.drop j = (B.drop p).drop (j - p) := by
      rw [dropAt]
      congr 1
      omega
    rw [h1, hw, List.drop_append_of_le_length (by omega)]
  rw [hd, pfx_append_left R (by rw [List.length_drop]; omega)]
  exact hm _ hj3

/-- `read_multipart_body` on a properly framed two-part body whose chunks
contain no premature `\r\n`-plus-delimiter: it splits off exactly the two
chunks, in order, and reduces each with `read_multipart_chunk`. -/
theorem rmb_two_chunks (bnd c1 c2 : List Nat)
    (hsep1 : slicey_find (c1 ++ 13 :: 10 :: 45 :: 45 :: bnd)
      (13 :: 10 :: 45 :: 45 :: bnd) = some c1.length)
    (hsep2 : slicey_find (c2 ++ 13 :: 10 :: 45 :: 45 :: bnd)
      (13 :: 10 :: 45 :: 45 :: bnd) = some c2.length) :
    read_multipart_body (mkTwoPartBody bnd c1 c2) bnd =
      some (Body.multipart (processChunks [c1, c2])) := by
  have hfind : slicey_find (mkTwoPartBody bnd c1 c2) ([45, 45] ++ bnd) = some 0 := by
    unfold slicey_find
    rw [if_neg (by simp)]
    apply sf_from_pfx_zero (by simp)
    rw [show mkTwoPartBody bnd c1 c2 = ([45, 45] ++ bnd) ++
      (13 :: 10 :: (c1 ++ (13 :: 10 :: 45 :: 45 :: (bnd ++ (13 :: 10 :: (c2 ++
        (13 :: 10 :: 45 :: 45 :: (bnd ++ [45, 45])))))))) from by
          simp [mkTwoPartBody]]
    exact pfx_self_append _ _
  rw [rmb_some_eq (mkTwoPartBody bnd c1 c2) bnd 0 hfind]
  have h1 : (mkTwoPartBody bnd c1 c2).length > 0 + ([45, 45] ++ bnd).length + 2 := by
    simp only [mkTwoPartBody, List.length_append, List.length_cons, List.length_nil]
    omega
  rw [if_pos h1]
  have h2 : extract (mkTwoPartBody bnd c1 c2) (0 + ([45, 45] ++ bnd).length)
      (0 + ([45, 45] ++ bnd).length + 2) = [13, 10] :=
    extract_of ([45, 45] ++ bnd) [13, 10]
      (c1 ++ (13 :: 10 :: 45 :: 45 :: (bnd ++ (13 :: 10 :: (c2 ++
        (13 :: 10 :: 45 :: 45 :: (bnd ++ [45, 45])))))))
      (by simp [mkTwoPartBody])
      (by simp only [List.length_append, List.length_cons, List.length_nil]; omega)
      (by simp only [List.length_append, List.length_cons, List.length_nil]; omega)
  rw [if_pos h2]
  have hcl : chunkLoop (mkTwoPartBody bnd c1 c2) ([45, 45] ++ bnd)
      (0 + ([45, 45] ++ bnd).length + 2) [] = some [c1, c2] := by
    have hpos : 0 + ([45, 45] ++ bnd).length + 2 = bnd.length + 4 := by
      simp only [List.length_append, List.length_cons, List.length_nil]
      omega
    rw [hpos]
    unfold chunkLoop
    have hdrop_i1 : (mkTwoPartBody bnd c1 c2).drop (bnd.length + 4 + c1.length) =
        [13, 10] ++ (45 :: 45 :: (bnd ++ (13 :: 10 :: (c2 ++
          (13 :: 10 :: 45 :: 45 :: (bnd ++ [45, 45])))))) :=
      drop_pre ([45, 45] ++ bnd ++ [13, 10] ++ c1) _
        (by simp [mkTwoPartBody])
        (by simp only [List.length_append, List.length_cons, List.length_nil]; omega)
    have hnl1 : [13, 10].isPrefixOf
        ((mkTwoPartBody bnd c1 c2).drop (bnd.length + 4 + c1.length)) = true := by
      rw [hdrop_i1]
      exact pfx_self_append _ _
    have hlen1 : bnd.length + 4 + c1.length + 2 < (mkTwoPartBody bnd c1 c2).length := by
      simp only [mkTwoPartBody, List.length_append, List.length_cons, List.length_nil]
      omega
    have hdrop_i1b : (mkTwoPartBody bnd c1 c2).drop (bnd.length + 4 + c1.length + 2) =
        ([45, 45] ++ bnd) ++ (13 :: 10 :: (c2 ++
          (13 :: 10 :: 45 :: 45 :: (bnd ++ [45, 45])))) :=
      drop_pre ([45, 45] ++ bnd ++ [13, 10] ++ c1 ++ [13, 10]) _
        (by simp [mkTwoPartBody])
        (by simp only [List.length_append, List.length_cons, List.length_nil]; omega)
    have hbd1 : ([45, 45] ++ bnd).isPrefixOf
        ((mkTwoPartBody bnd c1 c2).drop (bnd.length + 4 + c1.length + 2)) = true := by
      rw [hdrop_i1b]
      exact pfx_self_append _ _
    have hw1 : (mkTwoPartBody bnd c1 c2).drop (bnd.length + 4) =
        (c1 ++ (13 :: 10 :: 45 :: 45 :: bnd)) ++
          (13 :: 10 :: (c2 ++ (13 :: 10 :: 45 :: 45 :: (bnd ++ [45, 45])))) :=
      drop_pre ([45, 45] ++ bnd ++ [13, 10]) _
        (by simp [mkTwoPartBody])
        (by simp only [List.length_append, List.length_cons, List.length_nil]; omega)
    have hsep1f : slicey_find_from (c1 ++ 13 :: 10 :: 45 :: 45 :: bnd)
        (13 :: 10 :: 45 :: 45 :: bnd) = some c1.length := by
      simpa [slicey_find] using hsep1
    have hwm1 := window_min hw1
      (by simp only [List.length_append, List.length_cons, List.length_nil]; omega)
      (fun j hj => sf_from_some_min hsep1f j hj)
    have hN : [13, 10] ++ ([45, 45] ++ bnd) = 13 :: 10 :: 45 :: 45 :: bnd := by simp
    have hmin1 : ∀ j, bnd.length + 4 ≤ j → j < bnd.length + 4 + c1.length →
        ¬([13, 10].isPrefixOf ((mkTwoPartBody bnd c1 c2).drop j) = true ∧
          ([45, 45] ++ bnd).isPrefixOf
            ((mkTwoPartBody bnd c1 c2).drop (j + 2)) = true) := by
      rintro j hja hjb ⟨hcr, hbd⟩
      have hcomb : ([13, 10] ++ ([45, 45] ++ bnd)).isPrefixOf
          ((mkTwoPartBody bnd c1 c2).drop j) = true :=
        (pfx_append_split [13, 10] ([45, 45] ++ bnd) _).mpr
          ⟨hcr, by
            rw [show ([13, 10] : List Nat).length = 2 from rfl, dropAt]
            exact hbd⟩
      rw [hN] at hcomb
      have hfalse := hwm1 j hja hjb
      rw [hcomb] at hfalse
      simp at hfalse
    have hf1 := find_next_min (mkTwoPartBody bnd c1 c2) ([45, 45] ++ bnd)
      (bnd.length + 4) (bnd.length + 4 + c1.length) hnl1 hlen1 hbd1 (by omega) hmin1
    have hlenc1 : (mkTwoPartBody bnd c1 c2).length ≥
        bnd.length + 4 + c1.length + 2 + ([45, 45] ++ bnd).length + 2 := by
      simp only [mkTwoPartBody, List.length_append, List.length_cons, List.length_nil]
      omega
    have hcrlf1 : extract (mkTwoPartBody bnd c1 c2)
        (bnd.length + 4 + c1.length + 2 + ([45, 45] ++ bnd).length)
        (bnd.length + 4 + c1.length + 2 + ([45, 45] ++ bnd).length + 2) = [13, 10] :=
      extract_of ([45, 45] ++ bnd ++ [13, 10] ++ c1 ++ [13, 10] ++ [45, 45] ++ bnd)
        [13, 10] (c2 ++ (13 :: 10 :: 45 :: 45 :: (bnd ++ [45, 45])))
        (by simp [mkTwoPartBody])
        (by simp only [List.length_append, List.length_cons, List.length_nil]; omega)
        (by simp only [List.length_append, List.length_cons, List.length_nil]; omega)
    rw [chunkLoopF_found_cont (mkTwoPartBody bnd c1 c2) ([45, 45] ++ bnd)
      (mkTwoPartBody bnd c1 c2).length (bnd.length + 4) []
      (bnd.length + 4 + c1.length) hf1 hlenc1 hcrlf1]
    have hex1 : extract (mkTwoPartBody bnd c1 c2) (bnd.length + 4)
        (bnd.length + 4 + c1.length) = c1 :=
      extract_of ([45, 45] ++ bnd ++ [13, 10]) c1
        (13 :: 10 :: 45 :: 45 :: (bnd ++ (13 :: 10 :: (c2 ++
          (13 :: 10 :: 45 :: 45 :: (bnd ++ [45, 45]))))))
        (by simp [mkTwoPartBody])
        (by simp only [List.length_append, List.length_cons, List.length_nil]; omega)
        (by simp only [List.length_append, List.length_cons, List.length_nil]; omega)
    rw [hex1, List.nil_append]
    have hpos2 : bnd.length + 4 + c1.length + 2 + ([45, 45] ++ bnd).length + 2 =
        2 * bnd.length + 10 + c1.length := by
      simp only [List.length_append, List.length_cons, List.length_nil]
      omega
    rw [hpos2]
    have hfuel2 : (mkTwoPartBody bnd c1 c2).length =
        3 * bnd.length + 15 + c1.length + c2.length + 1 := by
      simp only [mkTwoPartBody, List.length_append, List.length_cons, List.length_nil]
      omega
    rw [hfuel2]
    have hdrop_i2 : (mkTwoPartBody bnd c1 c2).drop
        (2 * bnd.length + 10 + c1.length + c2.length) =
        [13, 10] ++ (45 :: 45 :: (bnd ++ [45, 45])) :=
      drop_pre ([45, 45] ++ bnd ++ [13, 10] ++ c1 ++ [13, 10] ++ [45, 45] ++ bnd ++
        [13, 10] ++ c2) _
        (by simp [mkTwoPartBody])
        (by simp only [List.length_append, List.length_cons, List.length_nil]; omega)
    have hnl2 : [13, 10].isPrefixOf ((mkTwoPartBody bnd c1 c2).drop
        (2 * bnd.length + 10 + c1.length + c2.length)) = true := by
      rw [hdrop_i2]
      exact pfx_self_append _ _
    have hlen2 : 2 * bnd.length + 10 + c1.length + c2.length + 2 <
        (mkTwoPartBody bnd c1 c2).length := by
      simp only [mkTwoPartBody, List.length_append, List.length_cons, List.length_nil]
      omega
    have hdrop_i2b : (mkTwoPartBody bnd c1 c2).drop
        (2 * bnd.length + 10 + c1.length + c2.length + 2) =
        ([45, 45] ++ bnd) ++ [45, 45] :=
      drop_pre ([45, 45] ++ bnd ++ [13, 10] ++ c1 ++ [13, 10] ++ [45, 45] ++ bnd ++
        [13, 10] ++ c2 ++ [13, 10]) _
        (by simp [mkTwoPartBody])
        (by simp only [List.length_append, List.length_cons, List.length_nil]; omega)
    have hbd2 : ([45, 45] ++ bnd).isPrefixOf ((mkTwoPartBody bnd c1 c2).drop
        (2 * bnd.length + 10 + c1.length + c2.length + 2)) = true := by
      rw [hdrop_i2b]
      exact pfx_self_append _ _
    have hw2 : (mkTwoPartBody bnd c1 c2).drop (2 * bnd.length + 10 + c1.length) =
        (c2 ++ (13 :: 10 :: 45 :: 45 :: bnd)) ++ [45, 45] :=
      drop_pre ([45, 45] ++ bnd ++ [13, 10] ++ c1 ++ [13, 10] ++ [45, 45] ++ bnd ++
        [13, 10]) _
        (by simp [mkTwoPartBody])
        (by simp only [List.length_append, List.length_cons, List.length_nil]; omega)
    have hsep2f : slicey_find_from (c2 ++ 13 :: 10 :: 45 :: 45 :: bnd)
        (13 :: 10 :: 45 :: 45 :: bnd) = some c2.length := by
      simpa [slicey_find] using hsep2
    have hwm2 := window_min hw2
      (by simp only [List.length_append, List.length_cons, List.length_nil]; omega)
      (fun j hj => sf_from_some_min hsep2f j hj)
    have hN2 : [13, 10] ++ ([45, 45] ++ bnd) = 13 :: 10 :: 45 :: 45 :: bnd := by simp
    have hmin2 : ∀ j, 2 * bnd.length + 10 + c1.length ≤ j →
        j < 2 * bnd.length + 10 + c1.length + c2.length →
        ¬([13, 10].isPrefixOf ((mkTwoPartBody bnd c1 c2).drop j) = true ∧
          ([45, 45] ++ bnd).isPrefixOf
            ((mkTwoPartBody bnd c1 c2).drop (j + 2)) = true) := by
      rintro j hja hjb ⟨hcr, hbd⟩
      have hcomb : ([13, 10] ++ ([45, 45] ++ bnd)).isPrefixOf
          ((mkTwoPartBody bnd c1 c2).drop j) = true :=
        (pfx_append_split [13, 10] ([45, 45] ++ bnd) _).mpr
          ⟨hcr, by
            rw [show ([13, 10] : List Nat).length = 2 from rfl, dropAt]
            exact hbd⟩
      rw [hN2] at hcomb
      have hfalse := hwm2 j hja hjb
      rw [hcomb] at hfalse
      simp at hfalse
    have hf2 := find_next_min (mkTwoPartBody bnd c1 c2) ([45, 45] ++ bnd)
      (2 * bnd.length + 10 + c1.length)
      (2 * bnd.length + 10 + c1.length + c2.length) hnl2 hlen2 hbd2 (by omega) hmin2
    have hlenc2 : (mkTwoPartBody bnd c1 c2).length ≥
        2 * bnd.length + 10 + c1.length + c2.length + 2 + ([45, 45] ++ bnd).length + 2 := by
      simp only [mkTwoPartBody, List.length_append, List.length_cons, List.length_nil]
      omega
    have hncrlf2 : ¬extract (mkTwoPartBody bnd c1 c2)
        (2 * bnd.length + 10 + c1.length + c2.length + 2 + ([45, 45] ++ bnd).length)
        (2 * bnd.length + 10 + c1.length + c2.length + 2 + ([45, 45] ++ bnd).length + 2) =
        [13, 10] := by
      rw [extract_of ([45, 45] ++ bnd ++ [13, 10] ++ c1 ++ [13, 10] ++ [45, 45] ++ bnd ++
        [13, 10] ++ c2 ++ [13, 10] ++ [45, 45] ++ bnd) [45, 45] []
        (by simp [mkTwoPartBody])
        (by simp only [List.length_append, List.length_cons, List.length_nil]; omega)
        (by simp only [List.length_append, List.length_cons, List.length_nil]; omega)]
      decide
    rw [chunkLoopF_found_last (mkTwoPartBody bnd c1 c2) ([45, 45] ++ bnd)
      (3 * bnd.length + 15 + c1.length + c2.length) (2 * bnd.length + 10 + c1.length)
      [c1] (2 * bnd.length + 10 + c1.length + c2.length) hf2 hlenc2 hncrlf2]
    have hex2 : extract (mkTwoPartBody bnd c1 c2) (2 * bnd.length + 10 + c1.length)
        (2 * bnd.length + 10 + c1.length + c2.length) = c2 :=
      extract_of ([45, 45] ++ bnd ++ [13, 10] ++ c1 ++ [13, 10] ++ [45, 45] ++ bnd ++
        [13, 10]) c2 (13 :: 10 :: 45 :: 45 :: (bnd ++ [45, 45]))
        (by simp [mkTwoPartBody])
        (by simp only [List.length_append, List.length_cons, List.length_nil]; omega)
        (by simp only [List.length_append, List.length_cons, List.length_nil]; omega)
    rw [hex2]
    rfl
  simp only [hcl]

/-- C4: for every two-part multipart body with boundary `bnd` and proper
CRLF framing — `--bnd`, CRLF, chunk, CRLF, `--bnd`, CRLF, chunk, CRLF,
closing `--bnd--` — whose chunks consist of CRLF-terminated header lines
(names holding no colon, lines holding no `\r\n`) followed by the blank
separator line and a payload, and in which the `\r\n--bnd` sequence first
occurs at each chunk's end, `read_multipart_body` yields exactly two
`MultipartPart`s in the original order; each part's header map holds the
input header lines with names decoded, trimmed and lower-cased and values
leading-whitespace-stripped, and each part's body is byte-for-byte the
input payload that follows the blank-line separator, excluding that blank
line and excluding the trailing delimiter and the CRLF preceding it. -/
theorem c4_two_part_roundtrip (bnd : List Nat)
    (hl1 hl2 : List (List Nat × List Nat)) (pay1 pay2 : List Nat)
    (hlines1 : ∀ p ∈ hl1, (∀ x ∈ p.1, ¬x = 58) ∧
      slicey_find_from (mkHeaderLine p) [13, 10] = none)
    (hlines2 : ∀ p ∈ hl2, (∀ x ∈ p.1, ¬x = 58) ∧
      slicey_find_from (mkHeaderLine p) [13, 10] = none)
    (hsep1 : slicey_find (mkChunk hl1 pay1 ++ 13 :: 10 :: 45 :: 45 :: bnd)
      (13 :: 10 :: 45 :: 45 :: bnd) = some (mkChunk hl1 pay1).length)
    (hsep2 : slicey_find (mkChunk hl2 pay2 ++ 13 :: 10 :: 45 :: 45 :: bnd)
      (13 :: 10 :: 45 :: 45 :: bnd) = some (mkChunk hl2 pay2).length) :
    read_multipart_body (mkTwoPartBody bnd (mkChunk hl1 pay1) (mkChunk hl2 pay2)) bnd =
      some (Body.multipart
        [⟨mkHeaderMap hl1, pay1⟩, ⟨mkHeaderMap hl2, pay2⟩]) := by
  rw [rmb_two_chunks bnd (mkChunk hl1 pay1) (mkChunk hl2 pay2) hsep1 hsep2]
  simp only [processChunks, List.foldl_cons, List.foldl_nil,
    read_multipart_chunk_mk hl1 pay1 hlines1, read_multipart_chunk_mk hl2 pay2 hlines2,
    List.nil_append]
  rfl

/-- C4 witness: a concrete two-part body with boundary `XYZ`, one header
line per part, payloads `hello` and `world`. -/
theorem c4_witness :
    read_multipart_body
      (mkTwoPartBody (str2cp "XYZ")
        (mkChunk [(str2cp "Content-Type", str2cp " text/plain")] (str2cp "hello"))
        (mkChunk [(str2cp "X-Tag", str2cp "b")] (str2cp "world")))
      (str2cp "XYZ") =
      some (Body.multipart
        [⟨mkHeaderMap [(str2cp "Content-Type", str2cp " text/plain")], str2cp "hello"⟩,
         ⟨mkHeaderMap [(str2cp "X-Tag", str2cp "b")], str2cp "world"⟩]) :=
  c4_two_part_roundtrip (str2cp "XYZ")
    [(str2cp "Content-Type", str2cp " text/plain")] [(str2cp "X-Tag", str2cp "b")]
    (str2cp "hello") (str2cp "world")
    (by decide) (by decide) (by decide) (by decide)
